import Mathlib

/-!
# Verification of the jiraiya static code-reference resolver

A shallow embedding of the resolver subsystem of the jiraiya repository
(`src/jiraiya/indexing/` and `src/jiraiya/domain/data.py`), together with
theorems settling the frozen claims about it.

The embedding translates the Python source directly:

* `tree_sitter` syntax nodes become the inductive `TSNode` (type, text,
  byte span, named fields, ordered children).  Parsing itself is an
  external collaborator (the grammar adapter), so resolver runs are stated
  over already-parsed trees (`SrcFile` carries the code and its root node).
* Python dictionaries become association lists with Python-dict semantics
  (insert keeps the first position of a key and overwrites its value).
* Python exceptions (`ValueError` from `ast.literal_eval` and from tuple
  unpacking, `NotImplementedError`, `KeyError`) become an `Except PyError`
  monad.
* `pydantic` records become structures.  `model_copy()` is a shallow copy,
  so the reference list of a copied `CodeData` is the same mutable list as
  the original's; consequently a resolution run over several language
  detectors accumulates into one shared table, which the embedding models
  by threading a single table through the detectors.
-/

set_option autoImplicit false

namespace Jiraiya

/-! ## Syntax-tree model (tree_sitter collaborator) -/

/-- A concrete syntax tree node as exposed by `tree_sitter`:
`type`, `text` (already decoded), byte span, named fields
(`child_by_field_name`), and the ordered list of children.
In real trees the field children also occur among `children`;
concrete trees in this file are built that way. -/
inductive TSNode where
  | mk (ty : String) (text : String) (startByte endByte : Nat)
       (fields : List (String × TSNode)) (children : List TSNode)
deriving Repr

mutual

/-- Structural node equality (modelling tree_sitter `Node.__eq__`; a
collected node occurs exactly once among its parent's children in a real
tree). -/
def TSNode.beq : TSNode → TSNode → Bool
  | .mk t1 x1 s1 e1 f1 c1, .mk t2 x2 s2 e2 f2 c2 =>
    t1 = t2 ∧ x1 = x2 ∧ s1 = s2 ∧ e1 = e2 ∧
    TSNode.beqFields f1 f2 ∧ TSNode.beqList c1 c2

def TSNode.beqFields : List (String × TSNode) → List (String × TSNode) → Bool
  | [], [] => true
  | p1 :: r1, p2 :: r2 => p1.1 = p2.1 ∧ TSNode.beq p1.2 p2.2 ∧ TSNode.beqFields r1 r2
  | _, _ => false

def TSNode.beqList : List TSNode → List TSNode → Bool
  | [], [] => true
  | a :: as, b :: bs => TSNode.beq a b ∧ TSNode.beqList as bs
  | _, _ => false

end

namespace TSNode

def ty : TSNode → String
  | .mk t _ _ _ _ _ => t

def text : TSNode → String
  | .mk _ x _ _ _ _ => x

def startByte : TSNode → Nat
  | .mk _ _ s _ _ _ => s

def endByte : TSNode → Nat
  | .mk _ _ _ e _ _ => e

def fields : TSNode → List (String × TSNode)
  | .mk _ _ _ _ f _ => f

def children : TSNode → List TSNode
  | .mk _ _ _ _ _ c => c

/-- `node.child_by_field_name(name)`. -/
def childByFieldName (n : TSNode) (name : String) : Option TSNode :=
  match n.fields.find? (fun p => p.1 = name) with
  | some p => some p.2
  | none => none

end TSNode

/-! ## Shared string helpers mirroring the Python string methods used

Implemented over character lists so that concrete runs reduce inside the
kernel (the corresponding core `String` routines use byte-position loops
that do not). -/

def charsIsPrefix : List Char → List Char → Bool
  | [], _ => true
  | _ :: _, [] => false
  | p :: ps, c :: cs => p = c ∧ charsIsPrefix ps cs

/-- Python `s.replace(pat, rep)`: replace every occurrence, left to right,
without overlap.  (For the empty pattern the sources only ever pass an
empty replacement, for which Python returns the string unchanged, as does
this function.) -/
def pyReplaceAux : Nat → List Char → List Char → List Char → List Char
  | _, [], _, _ => []
  | 0, cs, _, _ => cs
  | fuel + 1, c :: cs, pat, rep =>
    if pat ≠ [] ∧ charsIsPrefix pat (c :: cs) then
      rep ++ pyReplaceAux fuel ((c :: cs).drop pat.length) pat rep
    else
      c :: pyReplaceAux fuel cs pat rep

def pyReplace (s pat rep : String) : String :=
  ⟨pyReplaceAux s.toList.length s.toList pat.toList rep.toList⟩

/-- Python `s.split(sep)` for nonempty `sep`. -/
def pySplitAux : Nat → List Char → List Char → List Char → List String
  | 0, cs, _, acc => [⟨acc.reverse ++ cs⟩]
  | fuel + 1, cs, sep, acc =>
    match cs with
    | [] => [⟨acc.reverse⟩]
    | c :: rest =>
      if charsIsPrefix sep cs then
        ⟨acc.reverse⟩ :: pySplitAux fuel (cs.drop sep.length) sep []
      else
        pySplitAux fuel rest sep (c :: acc)

def pySplitOn (s sep : String) : List String :=
  pySplitAux (s.toList.length + 1) s.toList sep.toList []

/-- Python `s.strip()` (whitespace). -/
def pyTrim (s : String) : String :=
  ⟨((s.toList.dropWhile Char.isWhitespace).reverse.dropWhile
      Char.isWhitespace).reverse⟩

/-- Python `s.startswith(pat)`. -/
def pyStartsWith (s pat : String) : Bool :=
  charsIsPrefix pat.toList s.toList

/-- Python `s.endswith(pat)`. -/
def pyEndsWith (s pat : String) : Bool :=
  charsIsPrefix pat.toList.reverse s.toList.reverse

/-- Python `s.lstrip(".")`: drop all leading dots. -/
def lstripDots (s : String) : String :=
  ⟨s.toList.dropWhile (· = '.')⟩

/-- Python `pathlib.Path(p).with_suffix("")`: remove the final extension of
the last path component (a leading dot of the component is not a suffix). -/
def withSuffixEmpty (p : String) : String :=
  let comps := pySplitOn p "/"
  let last := comps.getLastD ""
  let chars := last.toList
  let idxs := (List.range chars.length).filter (fun i => chars.getD i ' ' = '.')
  let stripped :=
    match idxs.getLast? with
    | some i => if i > 0 then ⟨chars.take i⟩ else last
    | none => last
  String.intercalate "/" (comps.dropLast ++ [stripped])

/-- Python slicing `code[a:b]` (character positions; the source indexes a
`str` with tree-sitter byte offsets, which coincide for ASCII sources). -/
def strSlice (code : String) (a b : Nat) : String :=
  ⟨(code.toList.drop a).take (b - a)⟩

/-- Text before the first occurrence of `sep`, i.e. Python `s.split(sep)[0]`. -/
def headSegment (s sep : String) : String :=
  (pySplitOn s sep).headD s

/-! ## Python-dict model: association lists with insert-overwrite -/

/-- Python `d[k] = v`: overwrite in place if the key exists (keeping its
position), otherwise append the new key. -/
def dictInsert {α : Type} (d : List (String × α)) (k : String) (v : α) :
    List (String × α) :=
  if (d.find? (fun p => p.1 = k)).isSome then
    d.map (fun p => if p.1 = k then (k, v) else p)
  else
    d ++ [(k, v)]

/-- Python `d.get(k)` / `k in d`. -/
def dictFind? {α : Type} (d : List (String × α)) (k : String) : Option α :=
  match d.find? (fun p => p.1 = k) with
  | some p => some p.2
  | none => none

def dictKeys {α : Type} (d : List (String × α)) : List String :=
  d.map (·.1)

/-! ## Data model (`src/jiraiya/domain/data.py`) -/

inductive ReferenceType where
  | IMPORT
  | FROM_IMPORT
  | INHERITANCE
  | TYPE_ANNOTATION
  | CALL
  | ATTRIBUTE_ACCESS
  | DECORATOR
  | ASSIGNMENT
deriving DecidableEq, Repr

structure ReferenceData where
  type : ReferenceType
  file : String
  line : Nat
  column : Nat
  text : String
deriving DecidableEq, Repr

structure CodeData where
  type : String
  repo : String
  file_path : String
  name : String
  source_code : String
  docstring : String := ""
  parent_name : String := ""
  references : List ReferenceData := []
deriving DecidableEq, Repr

/-- `CodeData.module` (computed field):
`str(file_path.with_suffix("")).replace("/", ".").replace(repo, "").replace(name, "")`.
Python `str.replace` removes every occurrence of its pattern. -/
def CodeData.module (d : CodeData) : String :=
  pyReplace (pyReplace (pyReplace (withSuffixEmpty d.file_path) "/" ".") d.repo "") d.name ""

/-- The qualified-name index key of an entity:
`f"{d.module}.{d.name}".lstrip(".")` (reference_detector_base.py line 31). -/
def CodeData.qualifiedName (d : CodeData) : String :=
  lstripDots (d.module ++ "." ++ d.name)

end Jiraiya

namespace Jiraiya

/-! ## Errors raised by the Python code (as an `Except` monad) -/

inductive PyError where
  | valueError
  | notImplementedError
  | keyError
deriving DecidableEq, Repr

/-- A source file as seen by a detector: its path (the `Path` the detector
iterates over), its path relative to the codebase root
(`file_path.relative_to(self.codebase_path)`), its text, and the parsed
tree produced by the external grammar adapter. -/
structure SrcFile where
  path : String
  relPath : String
  code : String
  root : TSNode

/-- The qualified-name → CodeData index (a Python dict). -/
abbrev EntityTable := List (String × CodeData)

/-- Per-file import context: simple name → qualified name (a Python dict). -/
abbrev ImportsMap := List (String × String)

/-! ## `ReferenceDetector` base class (`reference_detector_base.py`) -/

/-- `_resolve_reference_target` (lines 108-125): try the qualified-name
index directly, then translate through the import context and re-check the
index; otherwise `None`.  Total — never raises. -/
def resolveReferenceTarget (identifier : String)
    (qualifiedNameToCodeData : EntityTable) (importsContext : ImportsMap) :
    Option CodeData :=
  match dictFind? qualifiedNameToCodeData identifier with
  | some d => some d
  | none =>
    match dictFind? importsContext identifier with
    | some qualifiedName =>
      match dictFind? qualifiedNameToCodeData qualifiedName with
      | some d => some d
      | none => none
    | none => none

/-- The key of the entity `_resolve_reference_target` returns.  The Python
handlers yield the mutable dict value and the driver appends to that very
object; in the pure embedding the handlers report the dict key instead and
the driver updates the table at that key (`resolveTargetKey_spec` below
proves the two views agree). -/
def resolveTargetKey (identifier : String) (keys : List String)
    (importsContext : ImportsMap) : Option String :=
  if identifier ∈ keys then some identifier
  else
    match dictFind? importsContext identifier with
    | some qualifiedName =>
      if qualifiedName ∈ keys then some qualifiedName else none
    | none => none

/-- `_is_relevant_reference` (lines 127-144): suppress the new reference if
one with the same type, file and line is already present. -/
def isRelevantReference (data : CodeData) (reference : ReferenceData) : Bool :=
  let existing := data.references.filter
    (fun ref => ref.type = reference.type ∧ ref.file = reference.file ∧
                ref.line = reference.line)
  existing.isEmpty

/-- Append-with-dedup at the level of one reference list
(`if self._is_relevant_reference(data, reference): data.references.append(reference)`). -/
def appendRelevant (refs : List ReferenceData) (r : ReferenceData) :
    List ReferenceData :=
  if (refs.filter (fun ref => ref.type = r.type ∧ ref.file = r.file ∧
       ref.line = r.line)).isEmpty
  then refs ++ [r]
  else refs

/-- Update the table entry the handler yielded (the Python code appends to
the yielded dict value in place; dict keys are unique, and the update
rewrites every entry carrying that key). -/
def tableAppend (t : EntityTable) (k : String) (r : ReferenceData) :
    EntityTable :=
  t.map (fun p =>
    if p.1 = k then (p.1, { p.2 with references := appendRelevant p.2.references r })
    else p)

/-- `_get_line_column` (lines 101-106): 1-indexed line and column of a node
from its start byte. -/
def getLineColumn (code : String) (n : TSNode) : Nat × Nat :=
  let pre := code.toList.take n.startByte
  let line := pre.count '\n' + 1
  let column := (pre.reverse.takeWhile (· ≠ '\n')).length + 1
  (line, column)

/-- A language-specific node handler: receives the node (plus the parent
type reachable from the real tree-sitter node), the index keys and the per
file import context, and yields resolution results in order (`none` stands
for a yielded unresolved `None`). -/
abbrev Handler := TSNode → Option String → List String → ImportsMap → List (Option String)

/-- A language-specific detector: import-context extraction plus the
node-type dispatch table (`self.node_handlers`). -/
structure LanguageSpec where
  extractImportsContext : TSNode → Except PyError ImportsMap
  nodeHandlers : String → Option (Handler × ReferenceType)

/-- The `ReferenceData` built in `_check_node_for_references`
(lines 90-97): the dispatch table's declared kind, the outer node's
position and its stripped text. -/
def mkNodeRef (refType : ReferenceType) (filePath code : String)
    (node : TSNode) : ReferenceData :=
  let lc := getLineColumn code node
  { type := refType, file := filePath, line := lc.1, column := lc.2,
    text := pyTrim node.text }

/-- `_check_node_for_references` (lines 74-99): dispatch on the node type;
for every yielded resolved entity build a `ReferenceData` from the outer
node and append it unless suppressed.  (`if ref_type and data:` — the
enum member `ref_type` is always truthy, so only `data` is tested.) -/
def checkNodeForReferences (lang : LanguageSpec) (node : TSNode)
    (parentTy : Option String) (filePath : String) (code : String)
    (t : EntityTable) (importsContext : ImportsMap) : EntityTable :=
  match lang.nodeHandlers node.ty with
  | none => t
  | some (handler, refType) =>
    (handler node parentTy (dictKeys t) importsContext).foldl
      (fun t res =>
        match res with
        | none => t
        | some key => tableAppend t key (mkNodeRef refType filePath code node))
      t

mutual

/-- The depth-first `walk_node` of `_find_references_in_file` (lines 60-68),
carrying the parent type for the handlers that read `node.parent`. -/
def walkNode (lang : LanguageSpec) (filePath code : String)
    (importsContext : ImportsMap) (node : TSNode) (parentTy : Option String)
    (t : EntityTable) : EntityTable :=
  match node with
  | .mk ty tx s e fs cs =>
    walkNodeList lang filePath code importsContext cs (some ty)
      (checkNodeForReferences lang (.mk ty tx s e fs cs) parentTy filePath code
        t importsContext)

def walkNodeList (lang : LanguageSpec) (filePath code : String)
    (importsContext : ImportsMap) (nodes : List TSNode)
    (parentTy : Option String) (t : EntityTable) : EntityTable :=
  match nodes with
  | [] => t
  | n :: ns =>
    walkNodeList lang filePath code importsContext ns parentTy
      (walkNode lang filePath code importsContext n parentTy t)

end

/-- The synthetic "local" import-context injection of
`_find_references_in_file` (lines 55-58): for every table value defined in
this same file, map its simple name to `f"{data.module}.{data.name}"`
(note: without `lstrip(".")`). -/
def injectLocalImports (t : EntityTable) (relPath : String)
    (ctx : ImportsMap) : ImportsMap :=
  t.foldl
    (fun ctx p =>
      if p.2.file_path = relPath then
        dictInsert ctx p.2.name (p.2.module ++ "." ++ p.2.name)
      else ctx)
    ctx

/-- `_find_references_in_file` (lines 43-68). -/
def findReferencesInFile (lang : LanguageSpec) (f : SrcFile)
    (t : EntityTable) : Except PyError EntityTable := do
  let ctx0 ← lang.extractImportsContext f.root
  let ctx := injectLocalImports t f.relPath ctx0
  pure (walkNode lang f.path f.code ctx f.root none t)

/-- `ReferenceDetector.resolve_references` (lines 24-41), minus the table
construction, which the caller threads (see the header comment on
`model_copy` sharing): process every file of the detector in order. -/
def detectorRun (lang : LanguageSpec) (files : List SrcFile)
    (t : EntityTable) : Except PyError EntityTable :=
  files.foldlM (fun t f => findReferencesInFile lang f t) t

/-- The qualified-name index built at the top of `resolve_references`
(line 31): a dict comprehension keyed by `qualifiedName`, later entities
overwriting earlier ones with the same key. -/
def buildTable (data : List CodeData) : EntityTable :=
  data.foldl (fun t d => dictInsert t d.qualifiedName d) []

end Jiraiya

namespace Jiraiya

/-! ## Python detector (`python_reference_detector.py`) -/

/-- Python substring test `pat in s` (for nonempty `pat`). -/
def containsSub (s pat : String) : Bool :=
  (pySplitOn s pat).length ≥ 2

/-- `yield self._resolve_reference_target(...)` — unconditional yield, the
result may be `None`. -/
def yieldResolved (ident : String) (keys : List String) (ctx : ImportsMap) :
    List (Option String) :=
  [resolveTargetKey ident keys ctx]

/-- `code_data = self._resolve_reference_target(...); if code_data: yield
code_data` — yield only when resolution succeeded. -/
def yieldIfResolved (ident : String) (keys : List String) (ctx : ImportsMap) :
    List (Option String) :=
  match resolveTargetKey ident keys ctx with
  | some k => [some k]
  | none => []

/-- The `import_statement` branch of `_extract_imports_context`
(lines 39-48): `import a.b.C` maps `C` to `a.b.C`. -/
def pyProcessImportStatement (m : ImportsMap) (importText : String) :
    ImportsMap :=
  if containsSub importText "." then
    let parts := pySplitOn (pyTrim (pyReplace importText "import" "")) "."
    if parts.length ≥ 2 then
      let simpleName := parts.getLastD ""
      let qualifiedName := String.intercalate "." parts
      dictInsert m simpleName qualifiedName
    else m
  else m

/-- The `import_from_statement` branch of `_extract_imports_context`
(lines 50-66): text-splitting on `" import "`, `","` and `" as "`.  The
tuple unpacking `original_name, alias = item.split(" as ")` raises
`ValueError` when the item contains `" as "` more than once. -/
def pyProcessFromImportStatement (m : ImportsMap) (importText : String) :
    Except PyError ImportsMap :=
  if containsSub importText "from " ∧ containsSub importText " import " then do
    let fromPart := pyTrim (pyReplace ((pySplitOn importText " import ").headD "") "from " "")
    let importPart := pyTrim ((pySplitOn importText " import ").getD 1 "")
    let importedItems := (pySplitOn importPart ",").map pyTrim
    importedItems.foldlM
      (fun m item =>
        if containsSub item " as " then
          match pySplitOn item " as " with
          | [originalName, aliasName] =>
            pure (dictInsert m (pyTrim aliasName) (fromPart ++ "." ++ pyTrim originalName))
          | _ => throw PyError.valueError
        else
          pure (dictInsert m item (fromPart ++ "." ++ item)))
      m
  else pure m

mutual

/-- The `walk_imports` recursion of the Python
`_extract_imports_context` (lines 38-69). -/
def pyWalkImports (node : TSNode) (m : ImportsMap) :
    Except PyError ImportsMap :=
  match node with
  | .mk ty tx _ _ _ cs => do
    let m ←
      if ty = "import_statement" then
        pure (pyProcessImportStatement m tx)
      else if ty = "import_from_statement" then
        pyProcessFromImportStatement m tx
      else
        pure m
    pyWalkImportsList cs m

def pyWalkImportsList (nodes : List TSNode) (m : ImportsMap) :
    Except PyError ImportsMap :=
  match nodes with
  | [] => pure m
  | n :: ns => do pyWalkImportsList ns (← pyWalkImports n m)

end

/-- `PythonReferenceDetector._extract_imports_context` (lines 30-72). -/
def pyExtractImportsContext (root : TSNode) : Except PyError ImportsMap :=
  pyWalkImports root []

/-- `_handle_inheritance` (lines 74-96): split the superclass clause text on
commas after dropping parentheses; resolve each nonempty name, yielding the
result unconditionally. -/
def pyHandleInheritance : Handler := fun node _ keys ctx =>
  match (node.childByFieldName "superclasses").orElse
        (fun _ => node.childByFieldName "extends") with
  | some superclassNode =>
    let superclassText := superclassNode.text
    let parentNames :=
      (pySplitOn (pyReplace (pyReplace superclassText "(" "") ")" "") ",").map pyTrim
    (parentNames.filter (· ≠ "")).flatMap (fun nm => yieldResolved nm keys ctx)
  | none => []

/-- `_handle_function_call` (lines 98-115): resolve the text of the
`function` field before the first `.`, yielding unconditionally. -/
def pyHandleFunctionCall : Handler := fun node _ keys ctx =>
  match node.childByFieldName "function" with
  | some functionNode =>
    let functionText := functionNode.text
    let baseIdentifier :=
      if containsSub functionText "." then headSegment functionText "."
      else functionText
    yieldResolved baseIdentifier keys ctx
  | none => []

mutual

/-- The explicit-stack traversal of `_handle_type_annotation`
(lines 127-141): `pop()` takes the last element and `extend` pushes the
children at the end, so the stack visits a node and then its children in
reverse order, each child's subtree completely before its earlier
siblings.  Collects every `identifier` text and every `call` head
identifier, in visit order. -/
def pyCollectAnnotationIdents (node : TSNode) : List String :=
  match node with
  | .mk ty _ _ _ _ cs =>
    (if ty = "identifier" then [node.text]
     else if ty = "call" then
       match cs.head? with
       | some c0 => if c0.ty = "identifier" then [c0.text] else []
       | none => []
     else [])
    ++ pyCollectAnnotationIdentsRev cs

def pyCollectAnnotationIdentsRev (nodes : List TSNode) : List String :=
  match nodes with
  | [] => []
  | n :: ns => pyCollectAnnotationIdentsRev ns ++ pyCollectAnnotationIdents n

end

/-- `_handle_type_annotation` (lines 117-147): resolve every collected
identifier, yielding only the resolved ones. -/
def pyHandleTypeAnn : Handler := fun node _ keys ctx =>
  (pyCollectAnnotationIdents node).flatMap (fun ident => yieldIfResolved ident keys ctx)

/-- `_handle_attribute_access` (lines 149-162): resolve the text before the
first `.`, yielding unconditionally. -/
def pyHandleAttributeAccess : Handler := fun node _ keys ctx =>
  let attrText := node.text
  let baseName := headSegment attrText "."
  yieldResolved baseName keys ctx

/-- `_handle_decorator` (lines 164-177): strip leading `@`, call
parentheses and qualification, keeping the head identifier; yield
unconditionally. -/
def pyHandleDecorator : Handler := fun node _ keys ctx =>
  let decoratorText := node.text
  let decoratorName :=
    headSegment (headSegment ⟨decoratorText.toList.dropWhile (· = '@')⟩ "(") "."
  yieldResolved decoratorName keys ctx

/-- `_handle_assignment` (lines 179-211): locate the right-hand side after
the `=`/`assignment_operator` child; resolve a bare identifier or a call
head, or delegate an attribute call head to the attribute handler. -/
def pyHandleAssignment : Handler := fun node parentTy keys ctx =>
  let cs := node.children
  let assignmentValue :=
    match cs.findIdx? (fun c => c.ty = "=" ∨ c.ty = "assignment_operator") with
    | some operatorIndex =>
      if operatorIndex + 1 < cs.length then cs[operatorIndex + 1]? else none
    | none => none
  match assignmentValue with
  | some av =>
    (if av.ty = "identifier" then yieldResolved av.text keys ctx else [])
    ++
    (if av.ty = "call" then
      (match av.children.head? with
       | some c0 =>
         (if c0.ty = "identifier" then yieldResolved c0.text keys ctx else [])
         ++
         (if c0.ty = "attribute" then pyHandleAttributeAccess c0 parentTy keys ctx else [])
       | none => [])
     else [])
  | none => []

/-- `_handle_variable_declaration` (lines 213-236): per child, resolve a
bare identifier or a call head, or delegate an attribute to the attribute
handler. -/
def pyHandleVariableDeclaration : Handler := fun node parentTy keys ctx =>
  node.children.flatMap (fun child =>
    if child.ty = "call" ∨ child.ty = "identifier" ∨ child.ty = "attribute" then
      (if child.ty = "identifier" then yieldResolved child.text keys ctx else [])
      ++
      (if child.ty = "call" then
        (match child.children.head? with
         | some c0 => if c0.ty = "identifier" then yieldResolved c0.text keys ctx else []
         | none => [])
       else if child.ty = "attribute" then
        pyHandleAttributeAccess child parentTy keys ctx
       else [])
    else [])

/-- The `PythonReferenceDetector.node_handlers` dispatch table
(lines 15-28). -/
def pythonNodeHandlers : String → Option (Handler × ReferenceType)
  | "class_definition" => some (pyHandleInheritance, .INHERITANCE)
  | "call" => some (pyHandleFunctionCall, .CALL)
  | "type" => some (pyHandleTypeAnn, .TYPE_ANNOTATION)
  | "type_annotation" => some (pyHandleTypeAnn, .TYPE_ANNOTATION)
  | "generic_type" => some (pyHandleTypeAnn, .TYPE_ANNOTATION)
  | "attribute" => some (pyHandleAttributeAccess, .ATTRIBUTE_ACCESS)
  | "decorator" => some (pyHandleDecorator, .DECORATOR)
  | "assignment" => some (pyHandleAssignment, .ASSIGNMENT)
  | "assignment_expression" => some (pyHandleAssignment, .ASSIGNMENT)
  | "augmented_assignment" => some (pyHandleAssignment, .ASSIGNMENT)
  | "variable_declaration" => some (pyHandleVariableDeclaration, .ASSIGNMENT)
  | "variable_declarator" => some (pyHandleVariableDeclaration, .ASSIGNMENT)
  | _ => none

def pythonLang : LanguageSpec where
  extractImportsContext := pyExtractImportsContext
  nodeHandlers := pythonNodeHandlers

end Jiraiya

namespace Jiraiya

/-! ## Kotlin detector (`kotlin_reference_detector.py`) -/

/-- Python `s.rstrip("()")`: drop all trailing `(` and `)` characters. -/
def rstripParens (s : String) : String :=
  ⟨(s.toList.reverse.dropWhile (fun c => c = '(' ∨ c = ')')).reverse⟩

/-- The `import_header` branch of the Kotlin `_extract_imports_context`
(lines 36-56).  Note that the alias branch records nothing in the map, and
wildcard imports contribute no entry either. -/
def ktProcessImportHeader (m : ImportsMap) (importTextRaw : String) :
    ImportsMap :=
  let importText := pyTrim importTextRaw
  if pyStartsWith importText "import " then
    let importBody := pyTrim (importText.drop "import ".length)
    if containsSub importBody " as " then
      m
    else
      let qualifiedName := importBody
      if pyEndsWith qualifiedName ".*" then m
      else
        let simpleName := (pySplitOn qualifiedName ".").getLastD ""
        dictInsert m simpleName qualifiedName
  else m

mutual

/-- The `walk_imports` recursion of the Kotlin `_extract_imports_context`
(lines 35-59). -/
def ktWalkImports (node : TSNode) (m : ImportsMap) : ImportsMap :=
  match node with
  | .mk ty tx _ _ _ cs =>
    ktWalkImportsList cs
      (if ty = "import_header" then ktProcessImportHeader m tx else m)

def ktWalkImportsList (nodes : List TSNode) (m : ImportsMap) : ImportsMap :=
  match nodes with
  | [] => m
  | n :: ns => ktWalkImportsList ns (ktWalkImports n m)

end

/-- `KotlinReferenceDetector._extract_imports_context` (lines 27-62);
total, hence wrapped in `pure`. -/
def ktExtractImportsContext (root : TSNode) : Except PyError ImportsMap :=
  pure (ktWalkImports root [])

/-- Kotlin `_handle_inheritance` (lines 64-81): scan grandchildren for
constructor invocations and type identifiers; yield only resolved
targets. -/
def ktHandleInheritance : Handler := fun node _ keys ctx =>
  node.children.flatMap (fun child =>
    child.children.flatMap (fun spec =>
      if spec.ty = "constructor_invocation" then
        yieldIfResolved (rstripParens spec.text) keys ctx
      else if spec.ty = "type_identifier" ∨ spec.ty = "user_type" then
        yieldIfResolved spec.text keys ctx
      else []))

/-- Kotlin `_handle_function_call` (lines 83-94): scan the call node's
children for a `simple_identifier` or `navigation_expression` and resolve
its full text; yield only resolved targets. -/
def ktHandleFunctionCall : Handler := fun node _ keys ctx =>
  if node.ty = "call_expression" then
    node.children.flatMap (fun child =>
      if child.ty = "simple_identifier" ∨ child.ty = "navigation_expression" then
        yieldIfResolved child.text keys ctx
      else [])
  else []

/-- Kotlin `_handle_type_annotation` (lines 96-118): guarded by the parent
node's type; resolve a `type_identifier`'s text or the first
`type_identifier` child of a `user_type`. -/
def ktHandleTypeAnn : Handler := fun node parentTy keys ctx =>
  if parentTy = some "value_parameter" ∨ parentTy = some "variable_declaration" ∨
     parentTy = some "type_reference" ∨ parentTy = some "user_type" then
    if node.ty = "type_identifier" then
      yieldIfResolved node.text keys ctx
    else if node.ty = "user_type" then
      let typeIdentifiers := node.children.filter (fun c => c.ty = "type_identifier")
      match typeIdentifiers.head? with
      | some first => yieldIfResolved first.text keys ctx
      | none => []
    else []
  else []

/-- Kotlin `_handle_attribute_access` (lines 120-134): resolve the left
side of a navigation expression when it is a simple identifier. -/
def ktHandleAttributeAccess : Handler := fun node _ keys ctx =>
  if node.ty = "navigation_expression" then
    match node.children.head? with
    | some leftNode =>
      if leftNode.ty = "simple_identifier" then
        yieldIfResolved leftNode.text keys ctx
      else []
    | none => []
  else []

/-- Kotlin `_handle_decorator` (lines 136-159): resolve annotation names
found among children or grandchildren. -/
def ktHandleDecorator : Handler := fun node _ keys ctx =>
  if node.ty = "annotation" then
    node.children.flatMap (fun child =>
      if child.ty = "user_type" ∨ child.ty = "simple_identifier" then
        yieldIfResolved child.text keys ctx
      else
        child.children.flatMap (fun spec =>
          if spec.ty = "user_type" ∨ spec.ty = "simple_identifier" ∨
             spec.ty = "constructor_invocation" then
            yieldIfResolved spec.text keys ctx
          else []))
  else []

/-- Kotlin `_handle_assignment` (lines 161-178): only fires on nodes of
type `assignment` (the dispatch table registers it for
`binary_expression`, so the guard never passes there); resolves the
right-hand side. -/
def ktHandleAssignment : Handler := fun node parentTy keys ctx =>
  if node.ty = "assignment" then
    match node.childByFieldName "right" with
    | some rhs =>
      if rhs.ty = "call_expression" then
        ktHandleFunctionCall rhs parentTy keys ctx
      else if rhs.ty = "simple_identifier" ∨ rhs.ty = "navigation_expression" then
        yieldIfResolved (headSegment rhs.text ".") keys ctx
      else []
    | none => []
  else []

/-- Kotlin `_handle_variable_declaration` (lines 180-214): resolve the
declared type's identifiers and the initializer. -/
def ktHandleVariableDeclaration : Handler := fun node parentTy keys ctx =>
  if node.ty ≠ "property_declaration" then []
  else
    (match node.childByFieldName "type" with
     | some typeNode =>
       let typeIdentifiers :=
         if typeNode.ty = "user_type" then
           typeNode.children.filter (fun c => c.ty = "type_identifier")
         else if typeNode.ty = "type_identifier" then [typeNode]
         else []
       typeIdentifiers.flatMap (fun identifierNode =>
         yieldIfResolved identifierNode.text keys ctx)
     | none => [])
    ++
    (match node.childByFieldName "initializer" with
     | some initializer =>
       if initializer.ty = "call_expression" then
         ktHandleFunctionCall initializer parentTy keys ctx
       else if initializer.ty = "simple_identifier" ∨
               initializer.ty = "navigation_expression" then
         yieldIfResolved (headSegment initializer.text ".") keys ctx
       else []
     | none => [])

/-- The `KotlinReferenceDetector.node_handlers` dispatch table
(lines 15-25). -/
def kotlinNodeHandlers : String → Option (Handler × ReferenceType)
  | "class_declaration" => some (ktHandleInheritance, .INHERITANCE)
  | "call_expression" => some (ktHandleFunctionCall, .CALL)
  | "type_identifier" => some (ktHandleTypeAnn, .TYPE_ANNOTATION)
  | "user_type" => some (ktHandleTypeAnn, .TYPE_ANNOTATION)
  | "type_reference" => some (ktHandleTypeAnn, .TYPE_ANNOTATION)
  | "property_declaration" => some (ktHandleVariableDeclaration, .ASSIGNMENT)
  | "binary_expression" => some (ktHandleAssignment, .ASSIGNMENT)
  | "navigation_expression" => some (ktHandleAttributeAccess, .ATTRIBUTE_ACCESS)
  | "annotation" => some (ktHandleDecorator, .DECORATOR)
  | _ => none

def kotlinLang : LanguageSpec where
  extractImportsContext := ktExtractImportsContext
  nodeHandlers := kotlinNodeHandlers

end Jiraiya

namespace Jiraiya

/-! ## `CodeBaseParser` (`code_parser.py`) -/

/-- `FILE_EXTENSION_LANGUAGE_MAP` (lines 18-23). -/
def fileExtensionLanguageMap : String → Option String
  | ".java" => some "java"
  | ".py" => some "python"
  | ".js" => some "javascript"
  | ".kt" => some "kotlin"
  | _ => none

def classNodeTypes : List String := ["class_definition", "class_declaration"]

def methodNodeTypes : List String :=
  ["function_definition", "method_declaration", "function_declaration"]

mutual

/-- The `walk` recursion of `_extract_class_and_method_nodes`
(lines 105-119), collecting class nodes and standalone-function nodes.
The Python nodes carry their parent pointers (used later by
`_find_annotations_for_node`); the embedding records each collected node
together with its parent explicitly. -/
def ecmWalk (node : TSNode) (parent : Option TSNode) (insideClass : Bool) :
    List (TSNode × Option TSNode) × List (TSNode × Option TSNode) :=
  match node with
  | .mk ty tx s e fs cs =>
    let self := TSNode.mk ty tx s e fs cs
    if ty ∈ classNodeTypes then
      let rest := ecmWalkList cs (some self) true
      ((self, parent) :: rest.1, rest.2)
    else if ty ∈ methodNodeTypes then
      let rest := ecmWalkList cs (some self) insideClass
      (rest.1, if insideClass then rest.2 else (self, parent) :: rest.2)
    else
      ecmWalkList cs (some self) insideClass

def ecmWalkList (nodes : List TSNode) (parent : Option TSNode)
    (insideClass : Bool) :
    List (TSNode × Option TSNode) × List (TSNode × Option TSNode) :=
  match nodes with
  | [] => ([], [])
  | n :: ns =>
    let first := ecmWalk n parent insideClass
    let rest := ecmWalkList ns parent insideClass
    (first.1 ++ rest.1, first.2 ++ rest.2)

end

/-- `_extract_class_and_method_nodes` (lines 101-122). -/
def extractClassAndMethodNodes (rootNode : TSNode) :
    List (TSNode × Option TSNode) × List (TSNode × Option TSNode) :=
  ecmWalk rootNode none false

/-- `_extract_name` (lines 171-182): direct `name` field, else the first
`type_identifier`/`simple_identifier` child for class/method nodes;
empty string when nothing is found. -/
def extractName (node : TSNode) : String :=
  let nameNode :=
    match node.childByFieldName "name" with
    | some n => some n
    | none =>
      if node.ty ∈ classNodeTypes ∨ node.ty ∈ methodNodeTypes then
        node.children.find? (fun c =>
          c.ty = "type_identifier" ∨ c.ty = "simple_identifier")
      else none
  match nameNode with
  | some n => n.text
  | none => ""

/-- Modelled collaborator: Python `ast.literal_eval` restricted to
string-literal input (the only shape `_extract_docstring` feeds it).
Handles an optional `r`/`R`/`u`/`U` prefix and the four quote styles; an
`f`/`F` prefix (an f-string, which tree-sitter also parses as a `string`
node) or any other unrecognized shape raises `ValueError`, exactly as
`ast.literal_eval` does on input that is not a literal. -/
def pyUnescapeChars : List Char → List Char
  | [] => []
  | '\\' :: c :: rest =>
    (match c with
     | '\\' => ['\\']
     | 'n' => ['\n']
     | 't' => ['\t']
     | 'r' => ['\r']
     | '\x27' => ['\x27']
     | '"' => ['"']
     | _ => ['\\', c]) ++ pyUnescapeChars rest
  | c :: rest => c :: pyUnescapeChars rest

def pyLiteralEvalString (s : String) : Except PyError String :=
  let cs := s.toList
  let prefixLetters := cs.takeWhile (fun c => c ≠ '"' ∧ c ≠ '\x27')
  let body := cs.drop prefixLetters.length
  let raw :=
    if prefixLetters = [] ∨ prefixLetters = ['r'] ∨ prefixLetters = ['R'] ∨
       prefixLetters = ['u'] ∨ prefixLetters = ['U'] then
      some (decide (prefixLetters = ['r'] ∨ prefixLetters = ['R']))
    else none
  match raw with
  | none => throw PyError.valueError
  | some isRaw =>
    let strip (q : List Char) : Option (List Char) :=
      if q.length * 2 ≤ body.length ∧ q.isPrefixOf body ∧
         q.isSuffixOf body then
        some ((body.drop q.length).take (body.length - 2 * q.length))
      else none
    let inner :=
      match strip ['"', '"', '"'] with
      | some i => some i
      | none =>
        match strip ['\x27', '\x27', '\x27'] with
        | some i => some i
        | none =>
          match strip ['"'] with
          | some i => some i
          | none => strip ['\x27']
    match inner with
    | some i => pure (if isRaw then ⟨i⟩ else ⟨pyUnescapeChars i⟩)
    | none => throw PyError.valueError

/-- The body-children scan of `_extract_docstring` (lines 163-168): return
at the first `expression_statement` whose first child is a `string`. -/
def extractDocstringLoop (code : String) : List TSNode → Except PyError String
  | [] => pure ""
  | child :: rest =>
    if child.ty = "expression_statement" ∧ child.children.length ≠ 0 then
      match child.children.head? with
      | some expr =>
        if expr.ty = "string" then
          pyLiteralEvalString (strSlice code expr.startByte expr.endByte)
        else extractDocstringLoop code rest
      | none => extractDocstringLoop code rest
    else extractDocstringLoop code rest

/-- `_extract_docstring` (lines 159-169): look into the `body` block for a
leading string-literal expression statement and unescape it with
`ast.literal_eval`; empty string when no such statement exists.  The
`ast.literal_eval` call is not guarded, so its `ValueError` propagates. -/
def extractDocstring (node : TSNode) (code : String) : Except PyError String :=
  match node.childByFieldName "body" with
  | some bodyNode => extractDocstringLoop code bodyNode.children
  | none => pure ""

/-- `_find_annotations_for_node` (lines 184-217): scan backwards from the
node's position among its parent's children, collecting contiguous
decorator/annotation texts, skipping comments and blank-text siblings, and
stopping at the first other sibling. -/
def scanAnnotationsBack (code : String) : List TSNode → List String
  | [] => []
  | c :: rest =>
    if c.ty = "decorator" ∨ c.ty = "annotation" then
      scanAnnotationsBack code rest ++ [pyTrim (strSlice code c.startByte c.endByte)]
    else if ¬ (c.ty = "comment" ∨ c.ty = "line_comment" ∨ c.ty = "block_comment") ∧
            pyTrim c.text ≠ "" then
      []
    else
      scanAnnotationsBack code rest

def findAnnotationsForNode (parent : Option TSNode) (targetNode : TSNode)
    (code : String) : List String :=
  match parent with
  | none => []
  | some parentNode =>
    match parentNode.children.findIdx? (fun c => TSNode.beq c targetNode) with
    | none => []
    | some targetIndex =>
      scanAnnotationsBack code ((parentNode.children.take targetIndex).reverse)

/-- `_get_full_source_with_annotations` (lines 219-228). -/
def getFullSourceWithAnnotations (parent : Option TSNode) (node : TSNode)
    (code : String) : String :=
  let annotations := findAnnotationsForNode parent node code
  let source := strSlice code node.startByte node.endByte
  if annotations ≠ [] then
    String.intercalate "\n" annotations ++ "\n" ++ source
  else source

/-- `_process_class_nodes` (lines 124-139): every class node becomes an
entity; there is no guard on the extracted name. -/
def processClassNodes (repo : String)
    (classNodes : List (TSNode × Option TSNode)) (filePathRel : String)
    (code : String) : Except PyError (List CodeData) :=
  classNodes.mapM (fun p => do
    let fullSource := getFullSourceWithAnnotations p.2 p.1 code
    let name := extractName p.1
    let doc ← extractDocstring p.1 code
    pure { type := "class", repo := repo, file_path := filePathRel,
           name := name, source_code := fullSource, docstring := doc })

/-- `_process_method_nodes` (lines 141-157): a method node becomes an
entity only when its extracted name is nonempty. -/
def processMethodNodes (repo : String)
    (methodNodes : List (TSNode × Option TSNode)) (filePathRel : String)
    (code : String) : Except PyError (List CodeData) := do
  let processed ← methodNodes.mapM (fun p => do
    let name := extractName p.1
    if name ≠ "" then
      let fullSource := getFullSourceWithAnnotations p.2 p.1 code
      let doc ← extractDocstring p.1 code
      pure [CodeData.mk "function" repo filePathRel name fullSource doc "" []]
    else
      pure [])
  pure processed.flatten

/-- `_group_files_by_language` (lines 93-99): a `defaultdict(list)` keyed
by language, keys in first-appearance order. -/
def groupFilesByLanguage (fileList : List (SrcFile × String)) :
    List (String × List SrcFile) :=
  fileList.foldl
    (fun acc p =>
      match dictFind? acc p.2 with
      | some files => dictInsert acc p.2 (files ++ [p.1])
      | none => acc ++ [(p.2, [p.1])])
    []

/-- The detector choice of the `resolve_references` loop (lines 236-241):
python and kotlin are supported, anything else raises
`NotImplementedError`. -/
def detectorForLanguage (lang : String) : Except PyError LanguageSpec :=
  if lang = "python" then pure pythonLang
  else if lang = "kotlin" then pure kotlinLang
  else throw PyError.notImplementedError

/-- The per-language-group loop of `CodeBaseParser.resolve_references`. -/
def groupsRun (groups : List (String × List SrcFile)) (t : EntityTable) :
    Except PyError EntityTable :=
  groups.foldlM
    (fun t g => do
      let spec ← detectorForLanguage g.1
      detectorRun spec g.2 t)
    t

/-- The final read-back of `resolve_references` (lines 245-250):
`code_data.references = references[qualified_name].references` (a missing
key would raise `KeyError`). -/
def assignReferencesBack (t : EntityTable) (data : List CodeData) :
    Except PyError (List CodeData) :=
  data.mapM (fun d =>
    match dictFind? t d.qualifiedName with
    | some v => pure { d with references := v.references }
    | none => throw PyError.keyError)

/-- `CodeBaseParser.resolve_references` (lines 230-252): run the language
detectors group by group (raising `NotImplementedError` for any language
other than python/kotlin), then copy each entity's reference list out of
the final table.  `model_copy()` is shallow, so all detectors operate on
the same underlying reference lists; the embedding threads one table.
(`if references:` — `references` stays `None` when there are no language
groups, and a final empty dict is falsy too; both leave `data`
untouched.) -/
def codeBaseResolveReferences (sourceFiles : List (SrcFile × String))
    (data : List CodeData) : Except PyError (List CodeData) := do
  let groups := groupFilesByLanguage sourceFiles
  if groups.isEmpty then
    pure data
  else do
    let t ← groupsRun groups (buildTable data)
    if t.isEmpty then
      pure data
    else
      assignReferencesBack t data

end Jiraiya

namespace Jiraiya

/-! ## Notions used by the verification -/

/-- The deduplication key of `_is_relevant_reference`: same kind, same
file, same line. -/
def ReferenceData.sameKey (a b : ReferenceData) : Prop :=
  a.type = b.type ∧ a.file = b.file ∧ a.line = b.line

/-- An entity with its reference list cleared: the part of a `CodeData`
that a resolution run never changes. -/
def stripRefs (d : CodeData) : CodeData := { d with references := [] }

/-- The reference-free image of a table: its keys plus entity metadata. -/
def keysMeta (t : EntityTable) : List (String × CodeData) :=
  t.map (fun p => (p.1, stripRefs p.2))

/-- The read-back applied to one entity when its key is present. -/
def updRef (t : EntityTable) (d : CodeData) : CodeData :=
  match dictFind? t d.qualifiedName with
  | some v => { d with references := v.references }
  | none => d

mutual

/-- The visit order of `walk_node`: the node itself, then its children
depth-first, each paired with its parent's type. -/
def preorderP : TSNode → Option String → List (TSNode × Option String)
  | .mk ty tx s e fs cs, pt =>
    (TSNode.mk ty tx s e fs cs, pt) :: preorderPList cs (some ty)

def preorderPList : List TSNode → Option String → List (TSNode × Option String)
  | [], _ => []
  | n :: ns, pt => preorderP n pt ++ preorderPList ns pt

end

/-- The append attempts one node's dispatch produces: target key plus the
reference record built from the outer node. -/
def nodeCands (lang : LanguageSpec) (node : TSNode) (parentTy : Option String)
    (keys : List String) (ctx : ImportsMap) (filePath code : String) :
    List (String × ReferenceData) :=
  match lang.nodeHandlers node.ty with
  | none => []
  | some (handler, refType) =>
    (handler node parentTy keys ctx).filterMap
      (fun o => o.map (fun k => (k, mkNodeRef refType filePath code node)))

/-- Replay a list of append attempts against a table. -/
def stepFold (t : EntityTable) (l : List (String × ReferenceData)) :
    EntityTable :=
  l.foldl (fun t p => tableAppend t p.1 p.2) t

/-- The import context a file is processed under (extraction result plus
the synthetic local entries). -/
def fileCtx (lang : LanguageSpec) (f : SrcFile) (t : EntityTable) :
    ImportsMap :=
  injectLocalImports t f.relPath
    ((lang.extractImportsContext f.root).toOption.getD [])

/-- All append attempts of one file's walk. -/
def fileAttempts (lang : LanguageSpec) (f : SrcFile) (t : EntityTable) :
    List (String × ReferenceData) :=
  (preorderP f.root none).flatMap
    (fun p => nodeCands lang p.1 p.2 (dictKeys t) (fileCtx lang f t) f.path f.code)

/-- All append attempts of a whole run. -/
def groupsAttempts (groups : List (String × List SrcFile)) (t : EntityTable) :
    List (String × ReferenceData) :=
  groups.flatMap (fun g =>
    match detectorForLanguage g.1 with
    | .ok spec => g.2.flatMap (fun f => fileAttempts spec f t)
    | .error _ => [])

/-- Every entry of the table holding the key already records a reference
with this key's dedup key. -/
def present (t : EntityTable) (k : String) (r : ReferenceData) : Prop :=
  ∀ p ∈ t, p.1 = k → ∃ x ∈ p.2.references, x.sameKey r

/-- Every entity value in the table has a reference list with pairwise
distinct (kind, file, line) keys. -/
def tableNoDup (t : EntityTable) : Prop :=
  ∀ p ∈ t, p.2.references.Pairwise (fun a b => ¬ a.sameKey b)

/-- Every group's language has a detector and every extraction in it
succeeds. -/
def groupsOk (groups : List (String × List SrcFile)) : Prop :=
  ∀ g ∈ groups, ∃ spec, detectorForLanguage g.1 = .ok spec ∧
    ∀ f ∈ g.2, ∃ ctx, spec.extractImportsContext f.root = .ok ctx

/-- The spec's reading of the module qualifier, for comparison with
`CodeData.module`: the dotted path with the repository *prefix* (when
present) and the entity's own trailing name (when present) stripped. -/
def moduleClaimSpec (relPath repo name : String) : String :=
  let dotted := pyReplace (withSuffixEmpty relPath) "/" "."
  let noRepo :=
    if pyStartsWith dotted (repo ++ ".") then dotted.drop (repo.length + 1)
    else if dotted = repo then "" else dotted
  if pyEndsWith noRepo ("." ++ name) then
    ⟨noRepo.toList.take (noRepo.toList.length - (name.toList.length + 1))⟩
  else if noRepo = name then "" else noRepo

end Jiraiya

namespace Jiraiya

/-! ## Concrete scenarios

Hand-built tree-sitter trees for small sources, used to evaluate the
embedding on concrete inputs. -/

/-- Entity `Foo` defined in `pkg/mod.py` of repository `repo`. -/
def exFoo : CodeData :=
  { type := "class", repo := "repo", file_path := "pkg/mod.py", name := "Foo",
    source_code := "class Foo: ..." }

/-- Entity literally named `Bar`, defined elsewhere. -/
def exBar : CodeData :=
  { type := "class", repo := "repo", file_path := "other/barmod.py",
    name := "Bar", source_code := "class Bar: ..." }

/-- `app.py`: `from pkg.mod import Foo as Bar` followed by the call
`Bar()`. -/
def exAliasCode : String := "from pkg.mod import Foo as Bar\nBar()\n"

def exAliasIdent : TSNode := .mk "identifier" "Bar" 31 34 [] []

def exAliasCall : TSNode :=
  .mk "call" "Bar()" 31 36 [("function", exAliasIdent)]
    [exAliasIdent, .mk "argument_list" "()" 34 36 [] []]

def exAliasRoot : TSNode :=
  .mk "module" exAliasCode 0 37 []
    [ .mk "import_from_statement" "from pkg.mod import Foo as Bar" 0 30 [] [],
      .mk "expression_statement" "Bar()" 31 36 [] [exAliasCall] ]

def exAliasFile : SrcFile :=
  { path := "repo/app.py", relPath := "app.py", code := exAliasCode,
    root := exAliasRoot }

/-- The expected output of resolving `exAliasFile` against
`[exFoo, exBar]`. -/
def exAliasOut : List CodeData :=
  [ { exFoo with references :=
        [{ type := .CALL, file := "repo/app.py", line := 2, column := 1,
           text := "Bar()" }] },
    exBar ]

/-- A module containing only `from a.b import C as D, E`. -/
def exFromImportRoot : TSNode :=
  .mk "module" "from a.b import C as D, E\n" 0 27 []
    [.mk "import_from_statement" "from a.b import C as D, E" 0 26 [] []]

/-- A Kotlin call with a dotted receiver: `pkg.Foo()`. -/
def exKtDottedCall : TSNode :=
  .mk "call_expression" "pkg.Foo()" 0 9 []
    [ .mk "navigation_expression" "pkg.Foo" 0 7 []
        [ .mk "simple_identifier" "pkg" 0 3 [] [],
          .mk "navigation_suffix" ".Foo" 3 7 [] [] ],
      .mk "call_suffix" "()" 7 9 [] [] ]

/-- `def f():` with an f-string in docstring position (tree-sitter parses
an f-string as a `string` node, but `ast.literal_eval` rejects it). -/
def exFStringCode : String := "def f():\n    f\"\"\"Doc\"\"\"\n"

def exFStringDef : TSNode :=
  .mk "function_definition" "def f():\n    f\"\"\"Doc\"\"\"" 0 23
    [ ("name", .mk "identifier" "f" 4 5 [] []),
      ("body", .mk "block" "f\"\"\"Doc\"\"\"" 13 23 []
        [.mk "expression_statement" "f\"\"\"Doc\"\"\"" 13 23 []
          [.mk "string" "f\"\"\"Doc\"\"\"" 13 23 [] []]]) ]
    [ .mk "identifier" "f" 4 5 [] [],
      .mk "block" "f\"\"\"Doc\"\"\"" 13 23 []
        [.mk "expression_statement" "f\"\"\"Doc\"\"\"" 13 23 []
          [.mk "string" "f\"\"\"Doc\"\"\"" 13 23 [] []]] ]

/-- `def g():` with an ordinary docstring. -/
def exDocCode : String := "def g():\n    \"\"\"Doc.\"\"\"\n"

def exDocDef : TSNode :=
  .mk "function_definition" "def g():\n    \"\"\"Doc.\"\"\"" 0 23
    [ ("name", .mk "identifier" "g" 4 5 [] []),
      ("body", .mk "block" "\"\"\"Doc.\"\"\"" 13 23 []
        [.mk "expression_statement" "\"\"\"Doc.\"\"\"" 13 23 []
          [.mk "string" "\"\"\"Doc.\"\"\"" 13 23 [] []]]) ]
    [ .mk "identifier" "g" 4 5 [] [],
      .mk "block" "\"\"\"Doc.\"\"\"" 13 23 []
        [.mk "expression_statement" "\"\"\"Doc.\"\"\"" 13 23 []
          [.mk "string" "\"\"\"Doc.\"\"\"" 13 23 [] []]] ]

/-- A class node carrying no `name` field and no identifier child (the
"no resolvable name" grammar oddity). -/
def exNamelessClass : TSNode :=
  .mk "class_definition" "class :" 0 7 []
    [ .mk "class" "class" 0 5 [] [], .mk ":" ":" 6 7 [] [] ]

/-- `class C:` containing a method `def m(): ...` (a method node nested in
a class subtree). -/
def exClassWithMethod : TSNode :=
  .mk "class_definition" "class C:\n    def m(): ..." 0 25
    [("name", .mk "identifier" "C" 6 7 [] [])]
    [ .mk "class" "class" 0 5 [] [],
      .mk "identifier" "C" 6 7 [] [],
      .mk ":" ":" 7 8 [] [],
      .mk "block" "def m(): ..." 13 25 []
        [.mk "function_definition" "def m(): ..." 13 25
          [("name", .mk "identifier" "m" 17 18 [] [])]
          [.mk "identifier" "m" 17 18 [] []]] ]

/-- The method node nested inside `exClassWithMethod`, with its name
field. -/
def exMethodNode : TSNode :=
  .mk "function_definition" "def m(): ..." 13 25
    [("name", .mk "identifier" "m" 17 18 [] [])]
    [.mk "identifier" "m" 17 18 [] []]

/-- An entity whose repository name occurs inside a path segment without
being a path prefix: repository `a`, file `man/x.py`, entity `F`. -/
def exRepoSub : CodeData :=
  { type := "class", repo := "a", file_path := "man/x.py", name := "F",
    source_code := "class F: ..." }

/-- A discovered Java file (file discovery maps `.java` to a language and
accepts it). -/
def exJavaFile : SrcFile :=
  { path := "repo/A.java", relPath := "A.java", code := "",
    root := .mk "program" "" 0 0 [] [] }

end Jiraiya

namespace Jiraiya

/-! ## Basic association-list lemmas -/

theorem dictFind?_mem {α : Type} {t : List (String × α)} {k : String} {v : α}
    (h : dictFind? t k = some v) : (k, v) ∈ t := by
  unfold dictFind? at h
  cases hf : t.find? (fun p => p.1 = k) with
  | none => rw [hf] at h; cases h
  | some p =>
    rw [hf] at h
    have hp : p.1 = k := by simpa using List.find?_some hf
    have hm := List.mem_of_find?_eq_some hf
    cases h
    rw [← hp]
    simpa using hm

theorem mem_dictInsert {α : Type} {t : List (String × α)} {k : String}
    {v : α} {p : String × α} (h : p ∈ dictInsert t k v) :
    p ∈ t ∨ p = (k, v) := by
  unfold dictInsert at h
  split at h
  · rcases List.mem_map.1 h with ⟨q, hq, hqe⟩
    by_cases hk : q.1 = k
    · rw [if_pos hk] at hqe
      exact Or.inr hqe.symm
    · rw [if_neg hk] at hqe
      exact Or.inl (hqe ▸ hq)
  · rcases List.mem_append.1 h with h | h
    · exact Or.inl h
    · exact Or.inr (by simpa using h)

theorem dictIsSome_iff_mem_keys {α : Type} (t : List (String × α))
    (k : String) :
    (t.find? (fun p => p.1 = k)).isSome = true ↔ k ∈ dictKeys t := by
  rw [List.find?_isSome]
  simp [dictKeys, List.mem_map, eq_comm]

theorem dictKeys_dictInsert {α : Type} (t : List (String × α)) (k : String)
    (v : α) :
    dictKeys (dictInsert t k v) =
      if k ∈ dictKeys t then dictKeys t else dictKeys t ++ [k] := by
  unfold dictInsert
  split
  · rw [if_pos ((dictIsSome_iff_mem_keys t k).1 (by assumption))]
    unfold dictKeys
    rw [List.map_map]
    apply List.map_congr_left
    intro p _
    by_cases hp : p.1 = k <;> simp [hp]
  · rw [if_neg (fun hmem =>
      (by assumption : ¬_) ((dictIsSome_iff_mem_keys t k).2 hmem))]
    simp [dictKeys]

theorem dictFind?_nil {α : Type} (k : String) :
    dictFind? ([] : List (String × α)) k = none := rfl

theorem dictFind?_cons {α : Type} (p : String × α) (t : List (String × α))
    (k : String) :
    dictFind? (p :: t) k = if p.1 = k then some p.2 else dictFind? t k := by
  by_cases h : p.1 = k <;> simp [dictFind?, List.find?_cons, h]

theorem dictFind?_append {α : Type} (t1 t2 : List (String × α)) (k : String) :
    dictFind? (t1 ++ t2) k =
      match dictFind? t1 k with
      | some v => some v
      | none => dictFind? t2 k := by
  induction t1 with
  | nil => simp [dictFind?_nil]
  | cons p t ih =>
    rw [List.cons_append, dictFind?_cons, dictFind?_cons]
    by_cases h : p.1 = k <;> simp [h, ih]

theorem dictIsSome_eq {α : Type} (t : List (String × α)) (k : String) :
    (t.find? (fun p => p.1 = k)).isSome = (dictFind? t k).isSome := by
  unfold dictFind?
  cases hf : t.find? (fun p => p.1 = k) <;> simp

theorem dictFind?_map_over {α : Type} (t : List (String × α)) (k k' : String)
    (v : α) :
    dictFind? (t.map (fun p => if p.1 = k then (k, v) else p)) k' =
      if k' = k then (if (dictFind? t k).isSome then some v else none)
      else dictFind? t k' := by
  induction t with
  | nil => by_cases hkk : k' = k <;> simp [dictFind?_nil, hkk]
  | cons p t ih =>
    rw [List.map_cons]
    by_cases hpk : p.1 = k <;> by_cases hkk : k' = k
    · subst hkk; simp [dictFind?_cons, hpk, ih]
    · have hkk2 : ¬ k = k' := fun h => hkk h.symm
      simp [dictFind?_cons, hpk, hkk, hkk2, ih]
    · subst hkk; simp [dictFind?_cons, hpk, ih]
    · simp [dictFind?_cons, hpk, hkk, ih]

theorem dictFind?_dictInsert {α : Type} (t : List (String × α))
    (k k' : String) (v : α) :
    dictFind? (dictInsert t k v) k' =
      if k' = k then some v else dictFind? t k' := by
  unfold dictInsert
  split
  · rw [dictFind?_map_over]
    have hs : (dictFind? t k).isSome = true := by
      rw [← dictIsSome_eq]; assumption
    simp [hs]
  · have hs : (dictFind? t k).isSome = false := by
      have h := (by assumption :
        ¬ (t.find? (fun p => p.1 = k)).isSome = true)
      rw [dictIsSome_eq, Bool.not_eq_true] at h
      exact h
    rw [dictFind?_append]
    by_cases hkk : k' = k
    · subst hkk
      cases hf : dictFind? t k' with
      | none => simp [dictFind?_cons]
      | some p => rw [hf] at hs; cases hs
    · cases hf : dictFind? t k' with
      | none => simp [dictFind?_cons, dictFind?_nil, hkk, Ne.symm hkk]
      | some p => simp [hkk]

theorem mem_dictKeys_iff {α : Type} (t : List (String × α)) (k : String) :
    k ∈ dictKeys t ↔ (dictFind? t k).isSome = true := by
  rw [← dictIsSome_iff_mem_keys, dictIsSome_eq]

/-- The key-level view of `_resolve_reference_target` agrees with the
value-level one: the Python handlers yield the dict value; the embedding's
handlers yield the dict key it sits under. -/
theorem resolveTargetKey_spec (identifier : String) (t : EntityTable)
    (ctx : ImportsMap) :
    resolveReferenceTarget identifier t ctx =
      (resolveTargetKey identifier (dictKeys t) ctx).bind
        (fun k => dictFind? t k) := by
  unfold resolveReferenceTarget resolveTargetKey
  by_cases hid : identifier ∈ dictKeys t
  · rcases Option.isSome_iff_exists.1 ((mem_dictKeys_iff t identifier).1 hid)
      with ⟨d, hd⟩
    simp [hid, hd]
  · have hnone : dictFind? t identifier = none := by
      cases hf : dictFind? t identifier with
      | none => rfl
      | some d => exact absurd ((mem_dictKeys_iff t identifier).2 (by simp [hf])) hid
    rw [hnone]
    cases hc : dictFind? ctx identifier with
    | none => simp [hid]
    | some q =>
      by_cases hq : q ∈ dictKeys t
      · rcases Option.isSome_iff_exists.1 ((mem_dictKeys_iff t q).1 hq)
          with ⟨d, hd⟩
        simp [hid, hq, hd]
      · have hqnone : dictFind? t q = none := by
          cases hf : dictFind? t q with
          | none => rfl
          | some d => exact absurd ((mem_dictKeys_iff t q).2 (by simp [hf])) hq
        simp [hid, hq, hqnone]

/-- **C1.** `_resolve_reference_target` first checks the qualified-name
index directly; on a miss it translates the identifier through the import
context and re-checks the index; if neither step finds an entity it
returns `none`.  It is a total function of its inputs — resolution never
raises, an unresolvable identifier only yields nothing. -/
theorem resolve_reference_target_two_step (identifier : String)
    (index : EntityTable) (ctx : ImportsMap) :
    (∀ d, dictFind? index identifier = some d →
        resolveReferenceTarget identifier index ctx = some d) ∧
    (dictFind? index identifier = none →
      ∀ q, dictFind? ctx identifier = some q →
        resolveReferenceTarget identifier index ctx = dictFind? index q) ∧
    (dictFind? index identifier = none → dictFind? ctx identifier = none →
        resolveReferenceTarget identifier index ctx = none) := by
  refine ⟨?_, ?_, ?_⟩
  · intro d h
    simp [resolveReferenceTarget, h]
  · intro h q hq
    simp only [resolveReferenceTarget, h, hq]
    cases hf : dictFind? index q <;> simp [hf]
  · intro h hq
    simp [resolveReferenceTarget, h, hq]

/-- Witness for C1: the fallback clause at a concrete input — `Bar` is not
a qualified name, the import context maps it to `pkg.mod.Foo`, and the
index lookup there succeeds. -/
theorem resolve_reference_target_two_step_witness :
    resolveReferenceTarget "Bar" [("pkg.mod.Foo", exFoo)]
      [("Bar", "pkg.mod.Foo")] = some exFoo := by
  have h := (resolve_reference_target_two_step "Bar"
    [("pkg.mod.Foo", exFoo)] [("Bar", "pkg.mod.Foo")]).2.1 (by rfl)
    "pkg.mod.Foo" (by rfl)
  exact h.trans (by rfl)

/-- **C4.** Import-alias extraction maps `from a.b import C as D, E` to
`D ↦ a.b.C` and `E ↦ a.b.E`; and in a full run over a file containing
`from pkg.mod import Foo as Bar` and the usage `Bar()`, the CALL
reference lands on the entity whose qualified name is `pkg.mod.Foo`
(`exFoo`, first entry of `exAliasOut`), while the entity literally named
`Bar` (`exBar`, second entry) receives no reference. -/
theorem import_alias_resolution :
    pyExtractImportsContext exFromImportRoot =
      .ok [("D", "a.b.C"), ("E", "a.b.E")] ∧
    exFoo.qualifiedName = "pkg.mod.Foo" ∧
    exBar.name = "Bar" ∧
    codeBaseResolveReferences [(exAliasFile, "python")] [exFoo, exBar] =
      .ok exAliasOut ∧
    (exAliasOut.getD 0 exBar).references =
      [{ type := .CALL, file := "repo/app.py", line := 2, column := 1,
         text := "Bar()" }] ∧
    (exAliasOut.getD 1 exFoo).references = [] :=
  ⟨by rfl, by rfl, by rfl, by rfl, by rfl, by rfl⟩

/-- **C5 counterexample.** The Kotlin call handler neither consults a
`function` field nor restricts itself to the head segment before the
first `.`: on the call `pkg.Foo()` it resolves the full dotted text
`pkg.Foo` (which succeeds against the qualified-name index), even though
the head segment `pkg` is unresolvable. -/
theorem kotlin_call_resolves_dotted_text :
    exKtDottedCall.ty = "call_expression" ∧
    exKtDottedCall.childByFieldName "function" = none ∧
    headSegment "pkg.Foo" "." = "pkg" ∧
    resolveTargetKey "pkg" ["pkg.Foo"] [] = none ∧
    ktHandleFunctionCall exKtDottedCall none ["pkg.Foo"] [] =
      [some "pkg.Foo"] :=
  ⟨by rfl, by rfl, by rfl, by rfl, by rfl⟩

/-- **C6 counterexample.** For repository `a`, file `man/x.py` and entity
`F`, the dotted path is `man.x`; it has no repository prefix and does not
contain the entity name, so stripping both leaves `man.x` — but the code
computes `mn.x`, because `str.replace` deletes every occurrence of the
repository name as a substring. -/
theorem module_strip_mismatch :
    exRepoSub.module = "mn.x" ∧
    moduleClaimSpec exRepoSub.file_path exRepoSub.repo exRepoSub.name =
      "man.x" ∧
    exRepoSub.module ≠
      moduleClaimSpec exRepoSub.file_path exRepoSub.repo exRepoSub.name :=
  ⟨by rfl, by rfl, by decide⟩

/-- **C8 (code bug).** `_extract_docstring` returns the unescaped leading
string literal when `ast.literal_eval` accepts it, but the
`ast.literal_eval` call is not guarded: an f-string in docstring position
(tree-sitter type `string`) makes it raise `ValueError` instead of
returning the empty string. -/
theorem docstring_fstring_raises :
    extractDocstring exDocDef exDocCode = .ok "Doc." ∧
    extractDocstring exFStringDef exFStringCode = .error .valueError :=
  ⟨by rfl, by rfl⟩

/-- **C9 counterexample.** A class node with no resolvable name is NOT
skipped: `_process_class_nodes` has no name guard, so the entity is
emitted with an empty name. -/
theorem nameless_class_included :
    extractName exNamelessClass = "" ∧
    processClassNodes "r" [(exNamelessClass, none)] "pkg/f.py" "class :" =
      .ok [{ type := "class", repo := "r", file_path := "pkg/f.py",
             name := "", source_code := "class :", docstring := "" }] :=
  ⟨by rfl, by rfl⟩

mutual

/-- Once the traversal is inside a class, no node of the subtree is
recorded as a standalone function: the `inside_class` flag is set for all
descendants and is never reset. -/
theorem ecmWalk_inside_nil : ∀ (n : TSNode) (p : Option TSNode),
    (ecmWalk n p true).2 = []
  | .mk ty tx s e fs cs, p => by
    rw [ecmWalk]
    by_cases hc : ty ∈ classNodeTypes
    · simp only [if_pos hc]
      exact ecmWalkList_inside_nil cs _
    · by_cases hm : ty ∈ methodNodeTypes
      · simp only [if_neg hc, if_pos hm, if_pos rfl]
        simpa using ecmWalkList_inside_nil cs _
      · simp only [if_neg hc, if_neg hm]
        exact ecmWalkList_inside_nil cs _

theorem ecmWalkList_inside_nil : ∀ (ns : List TSNode) (p : Option TSNode),
    (ecmWalkList ns p true).2 = []
  | [], _ => by rw [ecmWalkList]
  | n :: ns, p => by
    rw [ecmWalkList]
    simp [ecmWalk_inside_nil n p, ecmWalkList_inside_nil ns p]

end

/-- **C7.** Entering a class node sets `inside_class` for the whole
subtree (first clause: a walk started with the flag set records no
standalone-function node at all), so the subtree of any class node —
method descendants included — contributes nothing to the
standalone-function list (second clause), whichever flag value the class
node itself was reached under. -/
theorem class_subtree_no_standalone :
    (∀ (n : TSNode) (p : Option TSNode), (ecmWalk n p true).2 = []) ∧
    (∀ (c : TSNode) (p : Option TSNode) (insideClass : Bool),
      c.ty ∈ classNodeTypes → (ecmWalk c p insideClass).2 = []) := by
  refine ⟨ecmWalk_inside_nil, ?_⟩
  intro c p insideClass hc
  cases c with
  | mk ty tx s e fs cs =>
    rw [ecmWalk]
    simp only [TSNode.ty] at hc
    simp only [if_pos hc]
    exact ecmWalkList_inside_nil cs _

/-- Witness for C7: a concrete class node containing a method contributes
an empty standalone-function list. -/
theorem class_subtree_no_standalone_witness :
    (ecmWalk exClassWithMethod none false).2 = [] :=
  class_subtree_no_standalone.2 exClassWithMethod none false (by decide)

/-! ## Generic `Except`/`mapM`/`foldl` lemmas -/

theorem exceptMapMAux_ok_length {α β : Type} (f : α → Except PyError β) :
    ∀ (l : List α) (out : List β), l.mapM' f = .ok out →
      out.length = l.length := by
  intro l
  induction l with
  | nil => intro out h; simp [List.mapM', pure, Except.pure] at h; simp [← h]
  | cons a l ih =>
    intro out h
    simp only [List.mapM'] at h
    cases hf : f a with
    | error e => simp [hf, Bind.bind, Except.bind] at h
    | ok b =>
      simp only [hf, Bind.bind, Except.bind] at h
      cases hm : l.mapM' f with
      | error e => simp [hm] at h
      | ok bs =>
        simp [hm, pure, Except.pure] at h
        simp [← h, ih bs hm]

theorem exceptMapM_ok_length {α β : Type} (f : α → Except PyError β)
    (l : List α) (out : List β) (h : l.mapM f = .ok out) :
    out.length = l.length := by
  rw [← List.mapM'_eq_mapM] at h
  exact exceptMapMAux_ok_length f l out h

theorem exceptMapMAux_ok_mem {α β : Type} (f : α → Except PyError β) :
    ∀ (l : List α) (out : List β), l.mapM' f = .ok out →
      ∀ b ∈ out, ∃ a ∈ l, f a = .ok b := by
  intro l
  induction l with
  | nil =>
    intro out h
    simp [List.mapM', pure, Except.pure] at h
    subst h
    simp
  | cons a l ih =>
    intro out h
    simp only [List.mapM'] at h
    cases hf : f a with
    | error e => simp [hf, Bind.bind, Except.bind] at h
    | ok b =>
      simp only [hf, Bind.bind, Except.bind] at h
      cases hm : l.mapM' f with
      | error e => simp [hm] at h
      | ok bs =>
        simp [hm, pure, Except.pure] at h
        intro b' hb'
        rw [← h] at hb'
        rcases List.mem_cons.1 hb' with hb' | hb'
        · exact ⟨a, List.mem_cons_self a l, by rw [hf, hb']⟩
        · rcases ih bs hm b' hb' with ⟨a', ha', hfa'⟩
          exact ⟨a', List.mem_cons_of_mem a ha', hfa'⟩

theorem exceptMapM_ok_mem {α β : Type} (f : α → Except PyError β)
    (l : List α) (out : List β) (h : l.mapM f = .ok out) :
    ∀ b ∈ out, ∃ a ∈ l, f a = .ok b := by
  rw [← List.mapM'_eq_mapM] at h
  exact exceptMapMAux_ok_mem f l out h
theorem exceptMapM_ok_flatten_mem {α β : Type}
    (f : α → Except PyError (List β)) (P : β → Prop)
    (hP : ∀ a l, f a = .ok l → ∀ b ∈ l, P b) :
    ∀ (l : List α) (ls : List (List β)), l.mapM f = .ok ls →
      ∀ b ∈ ls.flatten, P b := by
  intro l ls h b hb
  rcases List.mem_flatten.1 hb with ⟨bl, hbl, hbbl⟩
  rcases exceptMapM_ok_mem f l ls h bl hbl with ⟨a, _, hfa⟩
  exact hP a bl hfa b hbbl

/-- **C9 amended.** Function/method nodes whose name cannot be resolved
are skipped by `_process_method_nodes`; class nodes are always emitted by
`_process_class_nodes` (one entity per node, an unresolvable name giving
an empty `name`). -/
theorem unnamed_nodes_amended :
    (∀ (repo : String) (nodes : List (TSNode × Option TSNode))
       (fp code : String) (out : List CodeData),
      processMethodNodes repo nodes fp code = .ok out →
        ∀ d ∈ out, d.name ≠ "") ∧
    (∀ (repo : String) (nodes : List (TSNode × Option TSNode))
       (fp code : String) (out : List CodeData),
      processClassNodes repo nodes fp code = .ok out →
        out.length = nodes.length) := by
  constructor
  · intro repo nodes fp code out h
    unfold processMethodNodes at h
    cases hm : nodes.mapM (fun p => do
        let name := extractName p.1
        if name ≠ "" then
          let fullSource := getFullSourceWithAnnotations p.2 p.1 code
          let doc ← extractDocstring p.1 code
          pure [CodeData.mk "function" repo fp name fullSource doc "" []]
        else
          pure ([] : List CodeData)) with
    | error e => rw [hm] at h; simp [Bind.bind, Except.bind] at h
    | ok ls =>
      rw [hm] at h
      simp only [Bind.bind, Except.bind, pure, Except.pure] at h
      injection h with h
      subst h
      refine exceptMapM_ok_flatten_mem _ (fun d => d.name ≠ "") ?_ nodes ls hm
      intro p l hl b hb
      simp only at hl
      by_cases hn : extractName p.1 = ""
      · rw [if_neg (by simpa using hn)] at hl
        simp only [pure, Except.pure] at hl
        injection hl with hl
        subst hl
        cases hb
      · rw [if_pos (by simpa using hn)] at hl
        cases hdoc : extractDocstring p.1 code with
        | error e => rw [hdoc] at hl; simp [Bind.bind, Except.bind] at hl
        | ok doc =>
          rw [hdoc] at hl
          simp only [Bind.bind, Except.bind, pure, Except.pure] at hl
          injection hl with hl
          subst hl
          rcases List.mem_singleton.1 hb with rfl
          simpa using hn
  · intro repo nodes fp code out h
    exact exceptMapM_ok_length _ nodes out h

/-- Witness for C9 amended: processing a concrete named method node yields
entities with nonempty names. -/
theorem unnamed_nodes_amended_witness :
    ∀ d ∈ [CodeData.mk "function" "r" "f.py" "m"
             "def m(): ..." "" "" []], d.name ≠ "" := by
  have h := unnamed_nodes_amended.1 "r" [(exMethodNode, none)] "f.py"
    "class C:\n    def m(): ..." [CodeData.mk "function" "r" "f.py" "m"
      "def m(): ..." "" "" []] (by rfl)
  exact h

/-- **C5 amended.** The Python call handler locates the `function` field
sub-node and resolves exactly the text before the first `.` (the whole
text when no dot occurs); a call without a `function` field, or whose base
identifier is unresolvable, contributes nothing and raises nothing.  The
Kotlin call handler instead scans the call node's children for a simple
identifier or navigation expression and resolves its *full* text, dots
included. -/
theorem call_handler_base_identifier :
    (∀ (node : TSNode) (pt : Option String) (keys : List String)
       (ctx : ImportsMap) (fn : TSNode),
      node.childByFieldName "function" = some fn →
        pyHandleFunctionCall node pt keys ctx =
          [resolveTargetKey
            (if containsSub fn.text "." then headSegment fn.text "."
             else fn.text) keys ctx]) ∧
    (∀ (node : TSNode) (pt : Option String) (keys : List String)
       (ctx : ImportsMap),
      node.childByFieldName "function" = none →
        pyHandleFunctionCall node pt keys ctx = []) ∧
    (∀ (node : TSNode) (pt : Option String) (fp code : String)
       (t : EntityTable) (ctx : ImportsMap) (fn : TSNode),
      node.ty = "call" →
      node.childByFieldName "function" = some fn →
      resolveTargetKey
        (if containsSub fn.text "." then headSegment fn.text "."
         else fn.text) (dictKeys t) ctx = none →
        checkNodeForReferences pythonLang node pt fp code t ctx = t) ∧
    (∀ (node : TSNode) (pt : Option String) (keys : List String)
       (ctx : ImportsMap) (k : String),
      some k ∈ ktHandleFunctionCall node pt keys ctx →
        ∃ c ∈ node.children,
          (c.ty = "simple_identifier" ∨ c.ty = "navigation_expression") ∧
          resolveTargetKey c.text keys ctx = some k) := by
  refine ⟨?_, ?_, ?_, ?_⟩
  · intro node pt keys ctx fn h
    unfold pyHandleFunctionCall
    rw [h]
    rfl
  · intro node pt keys ctx h
    unfold pyHandleFunctionCall
    rw [h]
  · intro node pt fp code t ctx fn hty hfn hres
    unfold checkNodeForReferences
    rw [hty]
    show (pyHandleFunctionCall node pt (dictKeys t) ctx).foldl _ t = t
    unfold pyHandleFunctionCall
    rw [hfn]
    show (yieldResolved _ _ _).foldl _ t = t
    unfold yieldResolved
    simp only [List.foldl_cons, List.foldl_nil, hres]
  · intro node pt keys ctx k hk
    unfold ktHandleFunctionCall at hk
    split at hk
    · rcases List.mem_flatMap.1 hk with ⟨c, hc, hkc⟩
      refine ⟨c, hc, ?_⟩
      split at hkc
      · unfold yieldIfResolved at hkc
        cases hres : resolveTargetKey c.text keys ctx with
        | none => rw [hres] at hkc; cases hkc
        | some k' =>
          rw [hres] at hkc
          rcases List.mem_singleton.1 hkc with h
          injection h with h
          subst h
          exact ⟨by assumption, by simp [hres]⟩
      · cases hkc
    · cases hk

/-- Witness for C5 amended: the Python handler on the concrete call
`Bar()` resolves the (dot-free) base identifier through the import
context. -/
theorem call_handler_base_identifier_witness :
    pyHandleFunctionCall exAliasCall none ["pkg.mod.Foo"]
      [("Bar", "pkg.mod.Foo")] = [some "pkg.mod.Foo"] := by
  have h := call_handler_base_identifier.1 exAliasCall none
    ["pkg.mod.Foo"] [("Bar", "pkg.mod.Foo")] exAliasIdent (by rfl)
  exact h.trans (by rfl)

theorem buildTableAux_keys_mono (l : List CodeData) :
    ∀ (acc : EntityTable) (k : String), k ∈ dictKeys acc →
      k ∈ dictKeys (l.foldl (fun t d => dictInsert t d.qualifiedName d) acc) := by
  induction l with
  | nil => intro acc k h; simpa using h
  | cons d l ih =>
    intro acc k h
    rw [List.foldl_cons]
    apply ih
    rw [dictKeys_dictInsert]
    split
    · exact h
    · exact List.mem_append_left _ h

theorem mem_keys_dictInsert_self {α : Type} (t : List (String × α))
    (k : String) (v : α) : k ∈ dictKeys (dictInsert t k v) := by
  rw [dictKeys_dictInsert]
  split
  · assumption
  · simp

theorem buildTable_mem_keys (data : List CodeData) :
    ∀ d ∈ data, d.qualifiedName ∈ dictKeys (buildTable data) := by
  unfold buildTable
  suffices h : ∀ (l : List CodeData) (acc : EntityTable), ∀ d ∈ l,
      d.qualifiedName ∈
        dictKeys (l.foldl (fun t d => dictInsert t d.qualifiedName d) acc) by
    intro d hd; exact h data [] d hd
  intro l
  induction l with
  | nil => intro acc d hd; cases hd
  | cons e l ih =>
    intro acc d hd
    rw [List.foldl_cons]
    rcases List.mem_cons.1 hd with rfl | hd
    · exact buildTableAux_keys_mono l _ _ (mem_keys_dictInsert_self _ _ _)
    · exact ih _ d hd

theorem buildTable_keys_from (data : List CodeData) :
    ∀ k ∈ dictKeys (buildTable data), ∃ d ∈ data, k = d.qualifiedName := by
  unfold buildTable
  suffices h : ∀ (l : List CodeData) (acc : EntityTable) (k : String),
      k ∈ dictKeys (l.foldl (fun t d => dictInsert t d.qualifiedName d) acc) →
      k ∈ dictKeys acc ∨ ∃ d ∈ l, k = d.qualifiedName by
    intro k hk
    rcases h data [] k hk with h | h
    · cases h
    · exact h
  intro l
  induction l with
  | nil => intro acc k h; exact Or.inl h
  | cons e l ih =>
    intro acc k h
    rw [List.foldl_cons] at h
    rcases ih _ k h with h | h
    · rw [dictKeys_dictInsert] at h
      split at h
      · exact Or.inl h
      · rcases List.mem_append.1 h with h | h
        · exact Or.inl h
        · exact Or.inr ⟨e, List.mem_cons_self e l, by simpa using h⟩
    · rcases h with ⟨d, hd, he⟩
      exact Or.inr ⟨d, List.mem_cons_of_mem e hd, he⟩

/-- **C6 amended.** The module qualifier is the file's dotted path with
every substring occurrence of the repository name and then of the entity
name deleted (Python `str.replace` semantics, not prefix/suffix
stripping); it is a deterministic function of `file_path`, `repo` and
`name` alone; and the qualified-name index of a resolution run is keyed
exactly by `moduleQualifier + "." + name` with leading dots stripped. -/
theorem module_qualifier_amended :
    (∀ d : CodeData, d.module =
      pyReplace (pyReplace (pyReplace (withSuffixEmpty d.file_path) "/" ".")
        d.repo "") d.name "") ∧
    (∀ d d' : CodeData, d.file_path = d'.file_path → d.repo = d'.repo →
      d.name = d'.name → d.module = d'.module) ∧
    (∀ d : CodeData, d.qualifiedName = lstripDots (d.module ++ "." ++ d.name)) ∧
    (∀ (data : List CodeData), ∀ d ∈ data,
      d.qualifiedName ∈ dictKeys (buildTable data)) ∧
    (∀ (data : List CodeData), ∀ k ∈ dictKeys (buildTable data),
      ∃ d ∈ data, k = d.qualifiedName) := by
  refine ⟨fun d => rfl, ?_, fun d => rfl, buildTable_mem_keys,
    buildTable_keys_from⟩
  intro d d' h1 h2 h3
  unfold CodeData.module
  rw [h1, h2, h3]

/-- Witness for C6 amended: the index of a concrete run contains the
qualified key of a concrete entity. -/
theorem module_qualifier_amended_witness :
    exFoo.qualifiedName ∈ dictKeys (buildTable [exFoo, exBar]) :=
  module_qualifier_amended.2.2.2.1 [exFoo, exBar] exFoo
    (List.mem_cons_self exFoo [exBar])

theorem findReferencesInFile_of_extract (lang : LanguageSpec) (f : SrcFile)
    (t : EntityTable) (c : ImportsMap)
    (h : lang.extractImportsContext f.root = .ok c) :
    findReferencesInFile lang f t =
      .ok (walkNode lang f.path f.code (injectLocalImports t f.relPath c)
            f.root none t) := by
  unfold findReferencesInFile
  rw [h]
  rfl

theorem detectorRun_ok (lang : LanguageSpec) :
    ∀ (files : List SrcFile) (t : EntityTable),
      (∀ f ∈ files, ∃ c, lang.extractImportsContext f.root = .ok c) →
      ∃ t', detectorRun lang files t = .ok t' := by
  intro files
  induction files with
  | nil => intro t _; exact ⟨t, rfl⟩
  | cons f fs ih =>
    intro t h
    rcases h f (List.mem_cons_self f fs) with ⟨c, hc⟩
    unfold detectorRun
    rw [List.foldlM_cons, findReferencesInFile_of_extract lang f t c hc]
    rcases ih _ (fun f' hf' => h f' (List.mem_cons_of_mem f hf')) with ⟨t', ht'⟩
    exact ⟨t', ht'⟩

theorem groupFiles_pairs {Q : SrcFile × String → Prop} :
    ∀ (l : List (SrcFile × String)) (acc : List (String × List SrcFile)),
      (∀ p ∈ l, Q p) → (∀ g ∈ acc, ∀ x ∈ g.2, Q (x, g.1)) →
      ∀ g ∈ l.foldl (fun acc p =>
          match dictFind? acc p.2 with
          | some files => dictInsert acc p.2 (files ++ [p.1])
          | none => acc ++ [(p.2, [p.1])]) acc,
        ∀ x ∈ g.2, Q (x, g.1) := by
  intro l
  induction l with
  | nil => intro acc _ hacc g hg; exact hacc g hg
  | cons p l ih =>
    intro acc hl hacc
    rw [List.foldl_cons]
    apply ih
    · intro p' hp'; exact hl p' (List.mem_cons_of_mem p hp')
    · intro g hg x hx
      cases hf : dictFind? acc p.2 with
      | some files =>
        rw [hf] at hg
        rcases mem_dictInsert hg with hg | hg
        · exact hacc g hg x hx
        · subst hg
          rcases List.mem_append.1 hx with hx | hx
          · exact hacc (p.2, files) (dictFind?_mem hf) x hx
          · rcases List.mem_singleton.1 hx with rfl
            simpa using hl p (List.mem_cons_self p l)
      | none =>
        rw [hf] at hg
        rcases List.mem_append.1 hg with hg | hg
        · exact hacc g hg x hx
        · rcases List.mem_singleton.1 hg with rfl
          rcases List.mem_singleton.1 hx with rfl
          simpa using hl p (List.mem_cons_self p l)

theorem groupFilesByLanguage_sound (src : List (SrcFile × String)) :
    ∀ g ∈ groupFilesByLanguage src, ∀ x ∈ g.2, (x, g.1) ∈ src := by
  unfold groupFilesByLanguage
  exact groupFiles_pairs src [] (fun p hp => hp) (fun g hg => by cases hg)

theorem groupKeys_mono :
    ∀ (l : List (SrcFile × String)) (acc : List (String × List SrcFile))
      (k : String), k ∈ dictKeys acc →
      k ∈ dictKeys (l.foldl (fun acc p =>
        match dictFind? acc p.2 with
        | some files => dictInsert acc p.2 (files ++ [p.1])
        | none => acc ++ [(p.2, [p.1])]) acc) := by
  intro l
  induction l with
  | nil => intro acc k h; exact h
  | cons p l ih =>
    intro acc k h
    rw [List.foldl_cons]
    apply ih
    cases hf : dictFind? acc p.2 with
    | some files =>
      rw [dictKeys_dictInsert]
      split
      · exact h
      · exact List.mem_append_left _ h
    | none =>
      unfold dictKeys at h ⊢
      rw [List.map_append]
      exact List.mem_append_left _ h

theorem groupFilesByLanguage_lang_mem (src : List (SrcFile × String))
    (f : SrcFile) (lang : String) (h : (f, lang) ∈ src) :
    lang ∈ dictKeys (groupFilesByLanguage src) := by
  unfold groupFilesByLanguage
  suffices hs : ∀ (l : List (SrcFile × String)) (acc : List (String × List SrcFile)),
      (f, lang) ∈ l →
      lang ∈ dictKeys (l.foldl (fun acc p =>
        match dictFind? acc p.2 with
        | some files => dictInsert acc p.2 (files ++ [p.1])
        | none => acc ++ [(p.2, [p.1])]) acc) by
    exact hs src [] h
  intro l
  induction l with
  | nil => intro acc hm; cases hm
  | cons p l ih =>
    intro acc hm
    rw [List.foldl_cons]
    rcases List.mem_cons.1 hm with rfl | hm
    · apply groupKeys_mono
      cases hf : dictFind? acc lang with
      | some files => exact mem_keys_dictInsert_self _ _ _
      | none =>
        unfold dictKeys
        rw [List.map_append]
        exact List.mem_append_right _ (by simp)
    · exact ih _ hm

theorem groupsRun_unsupported :
    ∀ (gs : List (String × List SrcFile)) (t : EntityTable),
      (∀ g ∈ gs, (∃ spec, detectorForLanguage g.1 = .ok spec ∧
          ∀ f ∈ g.2, ∃ c, spec.extractImportsContext f.root = .ok c) ∨
        detectorForLanguage g.1 = .error PyError.notImplementedError) →
      (∃ g ∈ gs, detectorForLanguage g.1 = .error PyError.notImplementedError) →
      groupsRun gs t = .error PyError.notImplementedError := by
  intro gs
  induction gs with
  | nil => intro t _ hex; rcases hex with ⟨g, hg, _⟩; cases hg
  | cons g gs ih =>
    intro t hall hex
    unfold groupsRun
    rw [List.foldlM_cons]
    rcases hall g (List.mem_cons_self g gs) with ⟨spec, hspec, hfiles⟩ | hbad
    · rw [hspec]
      simp only [Bind.bind, Except.bind, pure, Except.pure]
      rcases detectorRun_ok spec g.2 t hfiles with ⟨t', ht'⟩
      rw [ht']
      have hex' : ∃ g' ∈ gs, detectorForLanguage g'.1 =
          .error PyError.notImplementedError := by
        rcases hex with ⟨g', hg', hbad'⟩
        rcases List.mem_cons.1 hg' with rfl | hg'
        · rw [hspec] at hbad'; cases hbad'
        · exact ⟨g', hg', hbad'⟩
      exact ih t' (fun g' hg' => hall g' (List.mem_cons_of_mem g hg')) hex'
    · rw [hbad]
      simp [Bind.bind, Except.bind]

/-- **C10.** If the discovered file set contains a file of any language
other than python or kotlin, `CodeBaseParser.resolve_references` raises
`NotImplementedError` instead of producing a result (provided the
supported-language import extractions themselves do not raise first,
which would abort the run with that other error). -/
theorem unsupported_language_raises
    (src : List (SrcFile × String)) (data : List CodeData)
    (f : SrcFile) (lang : String)
    (hmem : (f, lang) ∈ src) (hnp : lang ≠ "python") (hnk : lang ≠ "kotlin")
    (hok : ∀ p ∈ src, ∀ spec, detectorForLanguage p.2 = .ok spec →
      ∃ c, spec.extractImportsContext p.1.root = .ok c) :
    codeBaseResolveReferences src data = .error PyError.notImplementedError := by
  have hbadlang : detectorForLanguage lang = .error PyError.notImplementedError := by
    simp [detectorForLanguage, hnp, hnk]
    rfl
  have hlangmem := groupFilesByLanguage_lang_mem src f lang hmem
  rcases List.mem_map.1 hlangmem with ⟨g, hg, hgl⟩
  have hnonempty : (groupFilesByLanguage src).isEmpty = false := by
    cases hgs : groupFilesByLanguage src with
    | nil => rw [hgs] at hg; cases hg
    | cons a l => rfl
  have hrun : groupsRun (groupFilesByLanguage src) (buildTable data) =
      .error PyError.notImplementedError := by
    apply groupsRun_unsupported
    · intro g' hg'
      cases hspec : detectorForLanguage g'.1 with
      | error e =>
        right
        unfold detectorForLanguage at hspec
        split at hspec
        · cases hspec
        · split at hspec
          · cases hspec
          · rw [← hspec]
            rfl
      | ok spec =>
        left
        refine ⟨spec, rfl, ?_⟩
        intro f' hf'
        exact hok (f', g'.1)
          (groupFilesByLanguage_sound src g' hg' f' hf') spec (by rw [hspec])
    · exact ⟨g, hg, by rw [hgl]; exact hbadlang⟩
  unfold codeBaseResolveReferences
  simp only [hnonempty, Bind.bind, Except.bind, Bool.false_eq_true,
    if_false, hrun]

/-- Witness for C10: a run whose discovered files include a single
`.java` file raises `NotImplementedError`. -/
theorem unsupported_language_raises_witness :
    codeBaseResolveReferences [(exJavaFile, "java")] [exFoo] =
      .error PyError.notImplementedError := by
  apply unsupported_language_raises [(exJavaFile, "java")] [exFoo]
    exJavaFile "java" (by simp) (by decide) (by decide)
  intro p hp spec hspec
  rcases List.mem_singleton.1 hp with rfl
  simp [detectorForLanguage] at hspec

theorem appendRelevant_eq (refs : List ReferenceData) (r : ReferenceData) :
    (appendRelevant refs r = refs ∧ ∃ x ∈ refs, x.sameKey r) ∨
    (appendRelevant refs r = refs ++ [r] ∧ ∀ x ∈ refs, ¬ x.sameKey r) := by
  unfold appendRelevant
  split
  · right
    refine ⟨rfl, ?_⟩
    intro x hx hkey
    have hempty := List.isEmpty_iff.1 (by assumption)
    have : x ∈ refs.filter (fun ref => decide (ref.type = r.type ∧
        ref.file = r.file ∧ ref.line = r.line)) :=
      List.mem_filter.2 ⟨hx, by simpa [ReferenceData.sameKey] using hkey⟩
    rw [hempty] at this
    cases this
  · left
    refine ⟨rfl, ?_⟩
    have hne := (by assumption :
      ¬ (refs.filter (fun ref => decide (ref.type = r.type ∧
          ref.file = r.file ∧ ref.line = r.line))).isEmpty = true)
    have hne2 : refs.filter (fun ref => decide (ref.type = r.type ∧
        ref.file = r.file ∧ ref.line = r.line)) ≠ [] := by
      intro hnil
      exact hne (by rw [hnil]; rfl)
    rcases List.exists_mem_of_ne_nil _ hne2 with ⟨x, hx⟩
    have hmem := List.mem_filter.1 hx
    exact ⟨x, hmem.1, by simpa [ReferenceData.sameKey] using hmem.2⟩

theorem appendRelevant_suppress (refs : List ReferenceData)
    (r : ReferenceData) (h : ∃ x ∈ refs, x.sameKey r) :
    appendRelevant refs r = refs := by
  rcases appendRelevant_eq refs r with ⟨he, _⟩ | ⟨he, hall⟩
  · exact he
  · rcases h with ⟨x, hx, hkey⟩
    exact absurd hkey (hall x hx)

theorem appendRelevant_pairwise (refs : List ReferenceData)
    (r : ReferenceData)
    (h : refs.Pairwise (fun a b => ¬ a.sameKey b)) :
    (appendRelevant refs r).Pairwise (fun a b => ¬ a.sameKey b) := by
  rcases appendRelevant_eq refs r with ⟨he, _⟩ | ⟨he, hall⟩
  · rw [he]; exact h
  · rw [he]
    rw [List.pairwise_append]
    exact ⟨h, List.pairwise_singleton _ _, by
      intro a ha b hb
      rcases List.mem_singleton.1 hb with rfl
      exact hall a ha⟩

theorem tableAppend_noDup (t : EntityTable) (k : String) (r : ReferenceData)
    (h : tableNoDup t) : tableNoDup (tableAppend t k r) := by
  intro p hp
  rcases List.mem_map.1 hp with ⟨q, hq, he⟩
  by_cases hk : q.1 = k
  · rw [if_pos hk] at he
    rw [← he]
    exact appendRelevant_pairwise _ _ (h q hq)
  · rw [if_neg hk] at he
    rw [← he]
    exact h q hq

theorem foldl_preserve {α β : Type} (P : β → Prop) (step : β → α → β)
    (h : ∀ b a, P b → P (step b a)) :
    ∀ (l : List α) (b : β), P b → P (l.foldl step b) := by
  intro l
  induction l with
  | nil => intro b hb; exact hb
  | cons a l ih => intro b hb; exact ih _ (h b a hb)

theorem checkNode_noDup (lang : LanguageSpec) (node : TSNode)
    (pt : Option String) (fp code : String) (t : EntityTable)
    (ctx : ImportsMap) (h : tableNoDup t) :
    tableNoDup (checkNodeForReferences lang node pt fp code t ctx) := by
  unfold checkNodeForReferences
  cases lang.nodeHandlers node.ty with
  | none => exact h
  | some pr =>
    apply foldl_preserve tableNoDup _ _ _ t h
    intro b a hb
    cases a with
    | none => exact hb
    | some key => exact tableAppend_noDup _ _ _ hb

mutual

theorem walkNode_noDup : ∀ (lang : LanguageSpec) (fp code : String)
    (ctx : ImportsMap) (n : TSNode) (pt : Option String) (t : EntityTable),
    tableNoDup t → tableNoDup (walkNode lang fp code ctx n pt t)
  | lang, fp, code, ctx, .mk ty tx s e fs cs, pt, t => fun h => by
    rw [walkNode]
    exact walkNodeList_noDup lang fp code ctx cs (some ty) _
      (checkNode_noDup lang _ pt fp code t ctx h)

theorem walkNodeList_noDup : ∀ (lang : LanguageSpec) (fp code : String)
    (ctx : ImportsMap) (ns : List TSNode) (pt : Option String)
    (t : EntityTable),
    tableNoDup t → tableNoDup (walkNodeList lang fp code ctx ns pt t)
  | lang, fp, code, ctx, [], pt, t => fun h => by rw [walkNodeList]; exact h
  | lang, fp, code, ctx, n :: ns, pt, t => fun h => by
    rw [walkNodeList]
    exact walkNodeList_noDup lang fp code ctx ns pt _
      (walkNode_noDup lang fp code ctx n pt t h)

end

theorem findReferencesInFile_noDup (lang : LanguageSpec) (f : SrcFile)
    (t t' : EntityTable) (h : findReferencesInFile lang f t = .ok t')
    (hn : tableNoDup t) : tableNoDup t' := by
  unfold findReferencesInFile at h
  cases he : lang.extractImportsContext f.root with
  | error e => rw [he] at h; simp [Bind.bind, Except.bind] at h
  | ok c =>
    rw [he] at h
    simp only [Bind.bind, Except.bind, pure, Except.pure] at h
    injection h with h
    rw [← h]
    exact walkNode_noDup _ _ _ _ _ _ _ hn

theorem exceptFoldlM_preserve {α β : Type} (P : β → Prop)
    (step : β → α → Except PyError β)
    (h : ∀ b a b', step b a = .ok b' → P b → P b') :
    ∀ (l : List α) (b b' : β), l.foldlM step b = .ok b' → P b → P b' := by
  intro l
  induction l with
  | nil =>
    intro b b' hf hb
    simp only [List.foldlM_nil, pure, Except.pure] at hf
    injection hf with hf
    rwa [← hf]
  | cons a l ih =>
    intro b b' hf hb
    rw [List.foldlM_cons] at hf
    cases hs : step b a with
    | error e => rw [hs] at hf; simp [Bind.bind, Except.bind] at hf
    | ok b1 =>
      rw [hs] at hf
      simp only [Bind.bind, Except.bind] at hf
      exact ih b1 b' hf (h b a b1 hs hb)

theorem detectorRun_noDup (lang : LanguageSpec) (files : List SrcFile)
    (t t' : EntityTable) (h : detectorRun lang files t = .ok t')
    (hn : tableNoDup t) : tableNoDup t' := by
  unfold detectorRun at h
  exact exceptFoldlM_preserve tableNoDup _
    (fun t f t'' hstep hinv => findReferencesInFile_noDup lang f t t'' hstep hinv)
    files t t' h hn

theorem groupsRun_noDup (groups : List (String × List SrcFile))
    (t t' : EntityTable) (h : groupsRun groups t = .ok t')
    (hn : tableNoDup t) : tableNoDup t' := by
  unfold groupsRun at h
  refine exceptFoldlM_preserve tableNoDup _ ?_ groups t t' h hn
  intro b g b' hstep hb
  cases hd : detectorForLanguage g.1 with
  | error e => rw [hd] at hstep; simp [Bind.bind, Except.bind] at hstep
  | ok spec =>
    rw [hd] at hstep
    simp only [Bind.bind, Except.bind, pure, Except.pure] at hstep
    exact detectorRun_noDup spec g.2 b b' hstep hb

theorem buildTableAux_values (P : CodeData → Prop) :
    ∀ (l : List CodeData) (acc : EntityTable),
      (∀ p ∈ acc, P p.2) → (∀ d ∈ l, P d) →
      ∀ p ∈ l.foldl (fun t d => dictInsert t d.qualifiedName d) acc, P p.2 := by
  intro l
  induction l with
  | nil => intro acc hacc _ p hp; exact hacc p hp
  | cons d l ih =>
    intro acc hacc hl p hp
    rw [List.foldl_cons] at hp
    refine ih _ ?_ (fun d' hd' => hl d' (List.mem_cons_of_mem d hd')) p hp
    intro q hq
    rcases mem_dictInsert hq with hq | hq
    · exact hacc q hq
    · rw [hq]; exact hl d (List.mem_cons_self d l)

theorem buildTable_values (data : List CodeData) :
    ∀ p ∈ buildTable data, p.2 ∈ data := by
  unfold buildTable
  exact buildTableAux_values (· ∈ data) data [] (fun p hp => by cases hp)
    (fun d hd => hd)

/-- **C2.** A candidate reference is suppressed at append time whenever
the target entity already holds a reference with the same kind, file and
line (first clause); consequently, a resolution run over entities whose
reference lists start empty (as the extractor produces them) never leaves
two references with identical (kind, file, line) on any entity (second
clause). -/
theorem resolution_dedup_invariant :
    (∀ (refs : List ReferenceData) (r : ReferenceData),
      (∃ x ∈ refs, x.sameKey r) → appendRelevant refs r = refs) ∧
    (∀ (src : List (SrcFile × String)) (data out : List CodeData),
      (∀ d ∈ data, d.references = []) →
      codeBaseResolveReferences src data = .ok out →
      ∀ d ∈ out, d.references.Pairwise (fun a b => ¬ a.sameKey b)) := by
  refine ⟨appendRelevant_suppress, ?_⟩
  intro src data out hempty hrun d hd
  have hinit : tableNoDup (buildTable data) := by
    intro p hp
    rw [hempty p.2 (buildTable_values data p hp)]
    exact List.Pairwise.nil
  unfold codeBaseResolveReferences at hrun
  by_cases hg : (groupFilesByLanguage src).isEmpty = true
  · simp only [hg, if_true, pure, Except.pure] at hrun
    injection hrun with hrun
    subst hrun
    rw [hempty d hd]
    exact List.Pairwise.nil
  · simp only [hg, if_false, Bind.bind, Except.bind] at hrun
    cases hr : groupsRun (groupFilesByLanguage src) (buildTable data) with
    | error e => rw [hr] at hrun; cases hrun
    | ok t =>
      rw [hr] at hrun
      have ht : tableNoDup t := groupsRun_noDup _ _ _ hr hinit
      by_cases hte : t.isEmpty = true
      · simp only [hte, if_true, pure, Except.pure] at hrun
        injection hrun with hrun
        subst hrun
        rw [hempty d hd]
        exact List.Pairwise.nil
      · simp only [hte, if_false] at hrun
        unfold assignReferencesBack at hrun
        rcases exceptMapM_ok_mem _ data out hrun d hd with ⟨a, _, ha⟩
        cases hf : dictFind? t a.qualifiedName with
        | none => rw [hf] at ha; cases ha
        | some v =>
          rw [hf] at ha
          simp only [pure, Except.pure] at ha
          injection ha with ha
          rw [← ha]
          exact ht (a.qualifiedName, v) (dictFind?_mem hf)

/-- Witness for C2: the concrete alias-resolution run starts from empty
reference lists and ends with pairwise-distinct reference keys on every
entity. -/
theorem resolution_dedup_invariant_witness :
    ∀ d ∈ exAliasOut,
      d.references.Pairwise (fun a b => ¬ a.sameKey b) :=
  resolution_dedup_invariant.2 [(exAliasFile, "python")] [exFoo, exBar]
    exAliasOut (by decide) (by rfl)

theorem keysMeta_tableAppend (t : EntityTable) (k : String)
    (r : ReferenceData) : keysMeta (tableAppend t k r) = keysMeta t := by
  unfold keysMeta tableAppend
  rw [List.map_map]
  apply List.map_congr_left
  intro p _
  by_cases hk : p.1 = k <;> simp [hk, stripRefs]

theorem keysMeta_stepFold (l : List (String × ReferenceData)) :
    ∀ t : EntityTable, keysMeta (stepFold t l) = keysMeta t := by
  induction l with
  | nil => intro t; rfl
  | cons a l ih =>
    intro t
    unfold stepFold at ih ⊢
    rw [List.foldl_cons, ih, keysMeta_tableAppend]

theorem dictKeys_of_keysMeta {t t' : EntityTable}
    (h : keysMeta t = keysMeta t') : dictKeys t = dictKeys t' := by
  have h2 := congrArg (List.map Prod.fst) h
  simpa [keysMeta, dictKeys, List.map_map, Function.comp] using h2

theorem dictKeys_tableAppend (t : EntityTable) (k : String)
    (r : ReferenceData) : dictKeys (tableAppend t k r) = dictKeys t :=
  dictKeys_of_keysMeta (keysMeta_tableAppend t k r)

theorem dictKeys_stepFold (l : List (String × ReferenceData))
    (t : EntityTable) : dictKeys (stepFold t l) = dictKeys t :=
  dictKeys_of_keysMeta (keysMeta_stepFold l t)

theorem dictFind?_keysMeta (t : EntityTable) (k : String) :
    dictFind? (keysMeta t) k = (dictFind? t k).map stripRefs := by
  induction t with
  | nil => rfl
  | cons p t ih =>
    unfold keysMeta at ih ⊢
    rw [List.map_cons, dictFind?_cons, dictFind?_cons]
    by_cases hk : p.1 = k <;> simp [hk, ih]

theorem foldl_filterMap_options (fp code : String) (refType : ReferenceType)
    (node : TSNode) :
    ∀ (l : List (Option String)) (t : EntityTable),
      l.foldl (fun t res =>
        match res with
        | none => t
        | some key => tableAppend t key (mkNodeRef refType fp code node)) t =
      stepFold t (l.filterMap
        (fun o => o.map (fun k => (k, mkNodeRef refType fp code node)))) := by
  intro l
  induction l with
  | nil => intro t; rfl
  | cons o l ih =>
    intro t
    cases o with
    | none => rw [List.foldl_cons, List.filterMap_cons]; exact ih t
    | some k =>
      rw [List.foldl_cons, List.filterMap_cons]
      simp only [Option.map_some]
      rw [ih]
      rfl

theorem checkNode_eq_stepFold (lang : LanguageSpec) (node : TSNode)
    (pt : Option String) (fp code : String) (t : EntityTable)
    (ctx : ImportsMap) :
    checkNodeForReferences lang node pt fp code t ctx =
      stepFold t (nodeCands lang node pt (dictKeys t) ctx fp code) := by
  unfold checkNodeForReferences nodeCands
  cases lang.nodeHandlers node.ty with
  | none => rfl
  | some pr => exact foldl_filterMap_options fp code pr.2 node _ t

mutual

theorem walkNode_eq_fold : ∀ (lang : LanguageSpec) (fp code : String)
    (ctx : ImportsMap) (n : TSNode) (pt : Option String) (t : EntityTable),
    walkNode lang fp code ctx n pt t =
      (preorderP n pt).foldl
        (fun t p => checkNodeForReferences lang p.1 p.2 fp code t ctx) t
  | lang, fp, code, ctx, .mk ty tx s e fs cs, pt, t => by
    rw [walkNode, preorderP, List.foldl_cons]
    exact walkNodeList_eq_fold lang fp code ctx cs (some ty) _

theorem walkNodeList_eq_fold : ∀ (lang : LanguageSpec) (fp code : String)
    (ctx : ImportsMap) (ns : List TSNode) (pt : Option String)
    (t : EntityTable),
    walkNodeList lang fp code ctx ns pt t =
      (preorderPList ns pt).foldl
        (fun t p => checkNodeForReferences lang p.1 p.2 fp code t ctx) t
  | lang, fp, code, ctx, [], pt, t => by
    rw [walkNodeList, preorderPList]
    rfl
  | lang, fp, code, ctx, n :: ns, pt, t => by
    rw [walkNodeList, preorderPList, List.foldl_append,
      ← walkNode_eq_fold lang fp code ctx n pt t]
    exact walkNodeList_eq_fold lang fp code ctx ns pt _

end

theorem foldPairs_eq_stepFold (lang : LanguageSpec) (fp code : String)
    (ctx : ImportsMap) :
    ∀ (pairs : List (TSNode × Option String)) (t : EntityTable),
      pairs.foldl
        (fun t p => checkNodeForReferences lang p.1 p.2 fp code t ctx) t =
      stepFold t (pairs.flatMap
        (fun p => nodeCands lang p.1 p.2 (dictKeys t) ctx fp code)) := by
  intro pairs
  induction pairs with
  | nil => intro t; rfl
  | cons p pairs ih =>
    intro t
    rw [List.foldl_cons, List.flatMap_cons, ih,
      checkNode_eq_stepFold lang p.1 p.2 fp code t ctx,
      dictKeys_stepFold]
    unfold stepFold
    rw [List.foldl_append]

theorem walkNode_eq_stepFold (lang : LanguageSpec) (fp code : String)
    (ctx : ImportsMap) (n : TSNode) (pt : Option String) (t : EntityTable) :
    walkNode lang fp code ctx n pt t =
      stepFold t ((preorderP n pt).flatMap
        (fun p => nodeCands lang p.1 p.2 (dictKeys t) ctx fp code)) := by
  rw [walkNode_eq_fold, foldPairs_eq_stepFold]

theorem stripRefs_file_path {a b : CodeData} (h : stripRefs a = stripRefs b) :
    a.file_path = b.file_path := by
  have h2 : (stripRefs a).file_path = (stripRefs b).file_path :=
    congrArg CodeData.file_path h
  exact h2

theorem stripRefs_name {a b : CodeData} (h : stripRefs a = stripRefs b) :
    a.name = b.name := by
  have h2 : (stripRefs a).name = (stripRefs b).name :=
    congrArg CodeData.name h
  exact h2

theorem stripRefs_repo {a b : CodeData} (h : stripRefs a = stripRefs b) :
    a.repo = b.repo := by
  have h2 : (stripRefs a).repo = (stripRefs b).repo :=
    congrArg CodeData.repo h
  exact h2

theorem stripRefs_module {a b : CodeData} (h : stripRefs a = stripRefs b) :
    a.module = b.module := by
  unfold CodeData.module
  rw [stripRefs_file_path h, stripRefs_repo h, stripRefs_name h]

theorem injectLocalImports_congr :
    ∀ (t t' : EntityTable) (r : String) (c : ImportsMap),
      keysMeta t = keysMeta t' →
      injectLocalImports t r c = injectLocalImports t' r c := by
  intro t
  induction t with
  | nil =>
    intro t' r c h
    have : t' = [] := by
      cases t' with
      | nil => rfl
      | cons p t' => cases h
    rw [this]
  | cons p ps ih =>
    intro t' r c h
    cases t' with
    | nil => cases h
    | cons q qs =>
      unfold keysMeta at h
      rw [List.map_cons, List.map_cons] at h
      injection h with hh ht
      injection hh with h1 h2
      unfold injectLocalImports at ih ⊢
      rw [List.foldl_cons, List.foldl_cons]
      have hstep :
          (if p.2.file_path = r then
            dictInsert c p.2.name (p.2.module ++ "." ++ p.2.name) else c) =
          (if q.2.file_path = r then
            dictInsert c q.2.name (q.2.module ++ "." ++ q.2.name) else c) := by
        rw [stripRefs_file_path h2, stripRefs_name h2, stripRefs_module h2]
      rw [hstep]
      exact ih qs r _ ht

theorem fileCtx_congr (lang : LanguageSpec) (f : SrcFile)
    {t t' : EntityTable} (h : keysMeta t = keysMeta t') :
    fileCtx lang f t = fileCtx lang f t' := by
  unfold fileCtx
  exact injectLocalImports_congr t t' f.relPath _ h

theorem fileAttempts_congr (lang : LanguageSpec) (f : SrcFile)
    {t t' : EntityTable} (h : keysMeta t = keysMeta t') :
    fileAttempts lang f t = fileAttempts lang f t' := by
  unfold fileAttempts
  rw [dictKeys_of_keysMeta h, fileCtx_congr lang f h]

theorem groupsAttempts_congr (groups : List (String × List SrcFile))
    {t t' : EntityTable} (h : keysMeta t = keysMeta t') :
    groupsAttempts groups t = groupsAttempts groups t' := by
  unfold groupsAttempts
  congr 1
  funext g
  cases hd : detectorForLanguage g.1 with
  | error e => rfl
  | ok spec =>
    show (g.2.flatMap fun f => fileAttempts spec f t) =
      g.2.flatMap fun f => fileAttempts spec f t'
    congr 1
    funext f
    exact fileAttempts_congr spec f h

theorem findReferencesInFile_ok_eq (lang : LanguageSpec) (f : SrcFile)
    (t : EntityTable) (c : ImportsMap)
    (h : lang.extractImportsContext f.root = .ok c) :
    findReferencesInFile lang f t =
      .ok (stepFold t (fileAttempts lang f t)) := by
  have h2 : fileCtx lang f t = injectLocalImports t f.relPath c := by
    unfold fileCtx
    rw [h]
    rfl
  rw [findReferencesInFile_of_extract lang f t c h, walkNode_eq_stepFold]
  unfold fileAttempts
  rw [h2]

theorem findReferencesInFile_ok_extract (lang : LanguageSpec) (f : SrcFile)
    (t t' : EntityTable) (h : findReferencesInFile lang f t = .ok t') :
    ∃ c, lang.extractImportsContext f.root = .ok c := by
  unfold findReferencesInFile at h
  cases he : lang.extractImportsContext f.root with
  | error e => rw [he] at h; simp [Bind.bind, Except.bind] at h
  | ok c => exact ⟨c, rfl⟩

theorem detectorRun_ok_eq (lang : LanguageSpec) :
    ∀ (files : List SrcFile) (t : EntityTable),
      (∀ f ∈ files, ∃ c, lang.extractImportsContext f.root = .ok c) →
      detectorRun lang files t =
        .ok (stepFold t (files.flatMap (fun f => fileAttempts lang f t))) := by
  intro files
  induction files with
  | nil => intro t _; rfl
  | cons f fs ih =>
    intro t h
    rcases h f (List.mem_cons_self f fs) with ⟨c, hc⟩
    unfold detectorRun
    rw [List.foldlM_cons, findReferencesInFile_ok_eq lang f t c hc]
    simp only [Bind.bind, Except.bind]
    have hrest := ih (stepFold t (fileAttempts lang f t))
      (fun f' hf' => h f' (List.mem_cons_of_mem f hf'))
    unfold detectorRun at hrest
    rw [hrest]
    have hcongr : (fs.flatMap
        (fun f' => fileAttempts lang f' (stepFold t (fileAttempts lang f t)))) =
        fs.flatMap (fun f' => fileAttempts lang f' t) := by
      congr 1
      funext f'
      exact fileAttempts_congr lang f' (keysMeta_stepFold _ t)
    rw [hcongr, List.flatMap_cons]
    unfold stepFold
    rw [List.foldl_append]

theorem detectorRun_ok_extracts (lang : LanguageSpec) :
    ∀ (files : List SrcFile) (t t' : EntityTable),
      detectorRun lang files t = .ok t' →
      ∀ f ∈ files, ∃ c, lang.extractImportsContext f.root = .ok c := by
  intro files
  induction files with
  | nil => intro t t' _ f hf; cases hf
  | cons f fs ih =>
    intro t t' h f' hf'
    unfold detectorRun at h
    rw [List.foldlM_cons] at h
    cases hr : findReferencesInFile lang f t with
    | error e => rw [hr] at h; simp [Bind.bind, Except.bind] at h
    | ok t1 =>
      rw [hr] at h
      simp only [Bind.bind, Except.bind] at h
      rcases List.mem_cons.1 hf' with rfl | hf'
      · exact findReferencesInFile_ok_extract lang f' t t1 hr
      · exact ih t1 t' h f' hf'

theorem groupsRun_ok_groupsOk :
    ∀ (gs : List (String × List SrcFile)) (t t' : EntityTable),
      groupsRun gs t = .ok t' → groupsOk gs := by
  intro gs
  induction gs with
  | nil => intro t t' _ g hg; cases hg
  | cons g gs ih =>
    intro t t' h g' hg'
    unfold groupsRun at h
    rw [List.foldlM_cons] at h
    cases hd : detectorForLanguage g.1 with
    | error e => rw [hd] at h; simp [Bind.bind, Except.bind] at h
    | ok spec =>
      rw [hd] at h
      simp only [Bind.bind, Except.bind] at h
      cases hr : detectorRun spec g.2 t with
      | error e => rw [hr] at h; simp [Bind.bind, Except.bind] at h
      | ok t1 =>
        rw [hr] at h
        simp only [Bind.bind, Except.bind] at h
        rcases List.mem_cons.1 hg' with rfl | hg'
        · exact ⟨spec, hd, detectorRun_ok_extracts spec g'.2 t t1 hr⟩
        · exact ih t1 t' h g' hg'

theorem groupsRun_ok_eq :
    ∀ (gs : List (String × List SrcFile)), groupsOk gs →
      ∀ t : EntityTable, groupsRun gs t = .ok (stepFold t (groupsAttempts gs t)) := by
  intro gs
  induction gs with
  | nil => intro _ t; rfl
  | cons g gs ih =>
    intro hok t
    rcases hok g (List.mem_cons_self g gs) with ⟨spec, hd, hfiles⟩
    unfold groupsRun
    rw [List.foldlM_cons, hd]
    simp only [Bind.bind, Except.bind, pure, Except.pure]
    rw [detectorRun_ok_eq spec g.2 t hfiles]
    have hrest := ih (fun g' hg' => hok g' (List.mem_cons_of_mem g hg'))
      (stepFold t (g.2.flatMap (fun f => fileAttempts spec f t)))
    unfold groupsRun at hrest
    simp only [Bind.bind, Except.bind] at hrest
    simp only [hrest]
    have hcongr : groupsAttempts gs
        (stepFold t (g.2.flatMap (fun f => fileAttempts spec f t))) =
        groupsAttempts gs t :=
      groupsAttempts_congr gs (keysMeta_stepFold _ t)
    rw [hcongr]
    unfold groupsAttempts
    rw [List.flatMap_cons, hd]
    show Except.ok _ = Except.ok (stepFold t
      ((g.2.flatMap fun f => fileAttempts spec f t) ++
        gs.flatMap fun g =>
          match detectorForLanguage g.1 with
          | .ok spec => g.2.flatMap fun f => fileAttempts spec f t
          | .error _ => []))
    unfold stepFold
    rw [List.foldl_append]

theorem groupsRun_ok_keysMeta (gs : List (String × List SrcFile))
    (t t' : EntityTable) (h : groupsRun gs t = .ok t') :
    t' = stepFold t (groupsAttempts gs t) ∧ keysMeta t' = keysMeta t := by
  have hok := groupsRun_ok_groupsOk gs t t' h
  rw [groupsRun_ok_eq gs hok t] at h
  injection h with h
  exact ⟨h.symm, by rw [h.symm, keysMeta_stepFold]⟩

theorem ReferenceData.sameKey_refl (r : ReferenceData) : r.sameKey r :=
  ⟨rfl, rfl, rfl⟩

theorem appendRelevant_sub (refs : List ReferenceData) (r x : ReferenceData)
    (h : x ∈ refs) : x ∈ appendRelevant refs r := by
  rcases appendRelevant_eq refs r with ⟨he, _⟩ | ⟨he, _⟩ <;> rw [he]
  · exact h
  · exact List.mem_append_left _ h

theorem present_tableAppend_mono (t : EntityTable) (k k' : String)
    (r r' : ReferenceData) (h : present t k' r') :
    present (tableAppend t k r) k' r' := by
  intro p hp hpk
  rcases List.mem_map.1 hp with ⟨q, hq, he⟩
  by_cases hk : q.1 = k
  · rw [if_pos hk] at he
    rcases h q hq (by rw [← he] at hpk; exact hpk) with ⟨x, hx, hkey⟩
    refine ⟨x, ?_, hkey⟩
    rw [← he]
    exact appendRelevant_sub _ _ _ hx
  · rw [if_neg hk] at he
    rw [← he]
    exact h q hq (by rw [← he] at hpk; exact hpk)

theorem present_tableAppend_self (t : EntityTable) (k : String)
    (r : ReferenceData) : present (tableAppend t k r) k r := by
  intro p hp hpk
  rcases List.mem_map.1 hp with ⟨q, hq, he⟩
  by_cases hk : q.1 = k
  · rw [if_pos hk] at he
    rw [← he]
    rcases appendRelevant_eq q.2.references r with ⟨heq, x, hx, hkey⟩ |
      ⟨heq, _⟩
    · exact ⟨x, by rw [heq]; exact hx, hkey⟩
    · exact ⟨r, by rw [heq]; exact List.mem_append_right _ (by simp),
        ReferenceData.sameKey_refl r⟩
  · rw [if_neg hk] at he
    exact absurd (by rw [← he] at hpk; exact hpk) hk

theorem present_stepFold_mono (l : List (String × ReferenceData)) :
    ∀ (t : EntityTable) (k : String) (r : ReferenceData),
      present t k r → present (stepFold t l) k r := by
  induction l with
  | nil => intro t k r h; exact h
  | cons a l ih =>
    intro t k r h
    unfold stepFold at ih ⊢
    rw [List.foldl_cons]
    exact ih _ k r (present_tableAppend_mono t a.1 k a.2 r h)

theorem stepFold_saturates (l : List (String × ReferenceData)) :
    ∀ (t : EntityTable), ∀ p ∈ l, present (stepFold t l) p.1 p.2 := by
  induction l with
  | nil => intro t p hp; cases hp
  | cons a l ih =>
    intro t p hp
    unfold stepFold
    rw [List.foldl_cons]
    rcases List.mem_cons.1 hp with rfl | hp
    · exact present_stepFold_mono l _ p.1 p.2
        (present_tableAppend_self t p.1 p.2)
    · exact ih _ p hp

theorem tableAppend_of_present (t : EntityTable) (k : String)
    (r : ReferenceData) (h : present t k r) : tableAppend t k r = t := by
  unfold tableAppend
  have : ∀ p ∈ t, (if p.1 = k then
      (p.1, { p.2 with references := appendRelevant p.2.references r })
    else p) = p := by
    intro p hp
    by_cases hk : p.1 = k
    · rw [if_pos hk, appendRelevant_suppress _ _ (h p hp hk)]
    · rw [if_neg hk]
  rw [List.map_congr_left this]
  simp

theorem stepFold_of_covered (l : List (String × ReferenceData)) :
    ∀ (t : EntityTable), (∀ p ∈ l, present t p.1 p.2) →
      stepFold t l = t := by
  induction l with
  | nil => intro t _; rfl
  | cons a l ih =>
    intro t h
    unfold stepFold
    rw [List.foldl_cons,
      tableAppend_of_present t a.1 a.2 (h a (List.mem_cons_self a l))]
    exact ih t (fun p hp => h p (List.mem_cons_of_mem a hp))

theorem stepFold_idem (l : List (String × ReferenceData)) (t : EntityTable) :
    stepFold (stepFold t l) l = stepFold t l :=
  stepFold_of_covered l (stepFold t l) (stepFold_saturates l t)

theorem dictFind?_none_of_not_mem {α : Type} {t : List (String × α)}
    {k : String} (h : k ∉ dictKeys t) : dictFind? t k = none := by
  cases hf : dictFind? t k with
  | none => rfl
  | some v => exact absurd ((mem_dictKeys_iff t k).2 (by simp [hf])) h

theorem table_ext :
    ∀ (t t' : EntityTable), dictKeys t = dictKeys t' →
      (dictKeys t).Nodup → (∀ k, dictFind? t k = dictFind? t' k) →
      t = t' := by
  intro t
  induction t with
  | nil =>
    intro t' hk _ _
    cases t' with
    | nil => rfl
    | cons p t' => cases hk
  | cons p t ih =>
    intro t' hk hnd hf
    cases t' with
    | nil => cases hk
    | cons q t'' =>
      unfold dictKeys at hk
      rw [List.map_cons, List.map_cons] at hk
      injection hk with hk1 hk2
      have hk2' : dictKeys t = dictKeys t'' := hk2
      have hnd' : (p.1 :: dictKeys t).Nodup := hnd
      rw [List.nodup_cons] at hnd'
      have hnd1 : p.1 ∉ dictKeys t := hnd'.1
      have hval : p.2 = q.2 := by
        have := hf p.1
        rw [dictFind?_cons, dictFind?_cons, if_pos rfl, if_pos hk1.symm]
          at this
        injection this
      have htail : t = t'' := by
        apply ih t'' hk2' hnd'.2
        intro k
        by_cases hpk : p.1 = k
        · rw [← hpk]
          rw [dictFind?_none_of_not_mem hnd1,
            dictFind?_none_of_not_mem (by rw [← hk2']; exact hnd1)]
        · have := hf k
          rw [dictFind?_cons, dictFind?_cons, if_neg hpk,
            if_neg (by rw [← hk1]; exact hpk)] at this
          exact this
      rw [htail, show p = q from Prod.ext hk1 hval]

theorem find?_ext {α : Type} (p q : α → Bool) (h : ∀ a, p a = q a) :
    ∀ l : List α, l.find? p = l.find? q := by
  intro l
  induction l with
  | nil => rfl
  | cons a l ih => rw [List.find?_cons, List.find?_cons, h a, ih]

theorem buildTableAux_find :
    ∀ (l : List CodeData) (acc : EntityTable) (k : String),
      dictFind? (l.foldl (fun t d => dictInsert t d.qualifiedName d) acc) k =
        match l.reverse.find? (fun d => d.qualifiedName = k) with
        | some d => some d
        | none => dictFind? acc k := by
  intro l
  induction l with
  | nil => intro acc k; rfl
  | cons d l ih =>
    intro acc k
    rw [List.foldl_cons, ih, List.reverse_cons, List.find?_append]
    cases hf : l.reverse.find? (fun d => d.qualifiedName = k) with
    | some e => simp [hf]
    | none =>
      simp only [hf, Option.none_or]
      rw [dictFind?_dictInsert]
      by_cases hq : d.qualifiedName = k
      · have hone : [d].find? (fun d => d.qualifiedName = k) = some d := by
          rw [List.find?_cons]
          simp [hq]
        rw [hone, if_pos hq.symm]
      · have hone : [d].find? (fun d => d.qualifiedName = k) = none := by
          rw [List.find?_cons]
          simp [hq]
        rw [hone, if_neg (fun hh => hq hh.symm)]

theorem buildTable_find (data : List CodeData) (k : String) :
    dictFind? (buildTable data) k =
      match data.reverse.find? (fun d => d.qualifiedName = k) with
      | some d => some d
      | none => none := by
  unfold buildTable
  rw [buildTableAux_find]
  cases data.reverse.find? (fun d => d.qualifiedName = k) <;> rfl

theorem buildTableAux_nodup :
    ∀ (l : List CodeData) (acc : EntityTable), (dictKeys acc).Nodup →
      (dictKeys (l.foldl (fun t d => dictInsert t d.qualifiedName d)
        acc)).Nodup := by
  intro l
  induction l with
  | nil => intro acc h; exact h
  | cons d l ih =>
    intro acc h
    rw [List.foldl_cons]
    apply ih
    rw [dictKeys_dictInsert]
    split
    · exact h
    · rw [List.nodup_append]
      exact ⟨h, List.nodup_singleton _, by
        intro a ha hb
        rcases List.mem_singleton.1 hb with rfl
        exact (by assumption : ¬_) ha⟩

theorem buildTable_nodup (data : List CodeData) :
    (dictKeys (buildTable data)).Nodup :=
  buildTableAux_nodup data [] List.nodup_nil

theorem updRef_qualifiedName (t : EntityTable) (d : CodeData) :
    (updRef t d).qualifiedName = d.qualifiedName := by
  unfold updRef
  cases dictFind? t d.qualifiedName <;> rfl

theorem setRefs_of_stripRefs_eq {a b : CodeData}
    (h : stripRefs a = stripRefs b) :
    { a with references := b.references } = b := by
  cases a
  cases b
  unfold stripRefs at h
  simp only [CodeData.mk.injEq] at h ⊢
  obtain ⟨e1, e2, e3, e4, e5, e6, e7⟩ := h
  simp [e1, e2, e3, e4, e5, e6, e7]

theorem buildTableAux_keys_map :
    ∀ (l l' : List CodeData) (acc acc' : EntityTable),
      l.map (fun d => d.qualifiedName) = l'.map (fun d => d.qualifiedName) →
      dictKeys acc = dictKeys acc' →
      dictKeys (l.foldl (fun t d => dictInsert t d.qualifiedName d) acc) =
        dictKeys (l'.foldl (fun t d => dictInsert t d.qualifiedName d) acc') := by
  intro l
  induction l with
  | nil =>
    intro l' acc acc' hm hk
    cases l' with
    | nil => exact hk
    | cons d' l' => cases hm
  | cons d l ih =>
    intro l' acc acc' hm hk
    cases l' with
    | nil => cases hm
    | cons d' l' =>
      rw [List.map_cons, List.map_cons] at hm
      injection hm with hm1 hm2
      rw [List.foldl_cons, List.foldl_cons]
      apply ih l' _ _ hm2
      rw [dictKeys_dictInsert, dictKeys_dictInsert, hm1, hk]

theorem buildTable_rebuild (data : List CodeData) (t1 : EntityTable)
    (h : keysMeta t1 = keysMeta (buildTable data)) :
    buildTable (data.map (updRef t1)) = t1 := by
  have hkeysBT : dictKeys (buildTable (data.map (updRef t1))) =
      dictKeys (buildTable data) := by
    unfold buildTable
    apply buildTableAux_keys_map _ _ [] [] _ rfl
    rw [List.map_map]
    apply List.map_congr_left
    intro d _
    exact updRef_qualifiedName t1 d
  have hkeys : dictKeys (buildTable (data.map (updRef t1))) = dictKeys t1 :=
    hkeysBT.trans (dictKeys_of_keysMeta h).symm
  apply table_ext _ _ hkeys (buildTable_nodup _)
  intro k
  have hmeta : (dictFind? t1 k).map stripRefs =
      (dictFind? (buildTable data) k).map stripRefs := by
    rw [← dictFind?_keysMeta, ← dictFind?_keysMeta, h]
  rw [buildTable_find] at hmeta
  rw [buildTable_find]
  have hrev : (List.map (updRef t1) data).reverse =
      List.map (updRef t1) data.reverse := (List.map_reverse _ _).symm
  rw [hrev, List.find?_map]
  have hpred : ((fun d => decide (d.qualifiedName = k)) ∘ updRef t1) =
      (fun d : CodeData => decide (d.qualifiedName = k)) := by
    funext d
    simp [Function.comp, updRef_qualifiedName]
  rw [hpred]
  cases hf : data.reverse.find? (fun d => d.qualifiedName = k) with
  | none =>
    rw [hf] at hmeta
    simp only [Option.map_none] at hmeta
    rcases Option.map_eq_none'.1 hmeta with hnone
    rw [hnone]
    rfl
  | some dl =>
    rw [hf] at hmeta
    simp only [Option.map_some] at hmeta
    rcases Option.map_eq_some'.1 hmeta with ⟨v, hv, hsv⟩
    have hdlk : dl.qualifiedName = k := by
      have := List.find?_some hf
      simpa using this
    have hupd : updRef t1 dl = { dl with references := v.references } := by
      unfold updRef
      rw [hdlk, hv]
    rw [hv]
    show some (updRef t1 dl) = some v
    rw [hupd, setRefs_of_stripRefs_eq hsv.symm]

theorem exceptMapMAux_ok_eq_map {α β : Type} (f : α → Except PyError β)
    (g : α → β) (hfg : ∀ a b, f a = .ok b → b = g a) :
    ∀ (l : List α) (out : List β), l.mapM' f = .ok out → out = l.map g := by
  intro l
  induction l with
  | nil =>
    intro out h
    simp [List.mapM', pure, Except.pure] at h
    simp [← h]
  | cons a l ih =>
    intro out h
    simp only [List.mapM'] at h
    cases hf : f a with
    | error e => simp [hf, Bind.bind, Except.bind] at h
    | ok b =>
      simp only [hf, Bind.bind, Except.bind] at h
      cases hm : l.mapM' f with
      | error e => simp [hm] at h
      | ok bs =>
        simp [hm, pure, Except.pure] at h
        rw [← h, List.map_cons, ← ih bs hm, hfg a b hf]

theorem exceptMapMAux_map {α β : Type} (f : α → Except PyError β)
    (g : α → β) :
    ∀ l : List α, (∀ a ∈ l, f a = .ok (g a)) → l.mapM' f = .ok (l.map g) := by
  intro l
  induction l with
  | nil => intro _; rfl
  | cons a l ih =>
    intro h
    simp only [List.mapM', h a (List.mem_cons_self a l),
      ih (fun a' ha' => h a' (List.mem_cons_of_mem a ha'))]
    rfl

theorem assignBack_ok_eq (t : EntityTable) (data out : List CodeData)
    (h : assignReferencesBack t data = .ok out) :
    out = data.map (updRef t) := by
  unfold assignReferencesBack at h
  rw [← List.mapM'_eq_mapM] at h
  refine exceptMapMAux_ok_eq_map _ (updRef t) ?_ data out h
  intro a b hab
  cases hf : dictFind? t a.qualifiedName with
  | none => rw [hf] at hab; cases hab
  | some v =>
    rw [hf] at hab
    simp only [pure, Except.pure] at hab
    injection hab with hab
    unfold updRef
    rw [hf, ← hab]

theorem assignBack_of_isSome (t : EntityTable) (data : List CodeData)
    (h : ∀ d ∈ data, (dictFind? t d.qualifiedName).isSome = true) :
    assignReferencesBack t data = .ok (data.map (updRef t)) := by
  unfold assignReferencesBack
  rw [← List.mapM'_eq_mapM]
  apply exceptMapMAux_map
  intro d hd
  rcases Option.isSome_iff_exists.1 (h d hd) with ⟨v, hv⟩
  rw [hv]
  unfold updRef
  rw [hv]
  rfl

theorem updRef_updRef (t : EntityTable) (d : CodeData) :
    updRef t (updRef t d) = updRef t d := by
  cases hf : dictFind? t d.qualifiedName with
  | none =>
    have h1 : updRef t d = d := by
      unfold updRef
      rw [hf]
    rw [h1]
    exact h1
  | some v =>
    have h1 : updRef t d = { d with references := v.references } := by
      unfold updRef
      rw [hf]
    rw [h1]
    unfold updRef
    have hq : ({ d with references := v.references } : CodeData).qualifiedName =
        d.qualifiedName := rfl
    rw [hq, hf]

/-- **C3.** The resolver is a pure function of the file set and entity
set — it keeps no state across invocations — and it is idempotent: when a
resolution run over `data` succeeds with `out`, running resolution again
on the unchanged file set and the resulting entity set reproduces `out`
exactly (same reference kinds, files, lines, texts, in the same order,
for every entity): every candidate reference of the second run is already
present with its (kind, file, line) key and is suppressed by the
append-time deduplication. -/
theorem resolution_idempotent (src : List (SrcFile × String))
    (data out : List CodeData)
    (h : codeBaseResolveReferences src data = .ok out) :
    codeBaseResolveReferences src out = .ok out := by
  unfold codeBaseResolveReferences at h ⊢
  by_cases hg : (groupFilesByLanguage src).isEmpty = true
  · simp only [hg, if_true]
    rfl
  · simp only [hg, Bool.false_eq_true, if_false, Bind.bind, Except.bind]
      at h ⊢
    cases hr : groupsRun (groupFilesByLanguage src) (buildTable data) with
    | error e => rw [hr] at h; cases h
    | ok t1 =>
      rw [hr] at h
      obtain ⟨ht1eq, ht1keys⟩ :=
        groupsRun_ok_keysMeta (groupFilesByLanguage src) (buildTable data) t1 hr
      have hok := groupsRun_ok_groupsOk (groupFilesByLanguage src)
        (buildTable data) t1 hr
      by_cases hte : t1.isEmpty = true
      · simp only [hte, if_true, pure, Except.pure] at h
        injection h with h
        subst h
        rw [hr]
        simp only [hte, if_true]
        rfl
      · simp only [hte, Bool.false_eq_true, if_false] at h
        have hout : out = data.map (updRef t1) := assignBack_ok_eq t1 data out h
        have hBT : buildTable out = t1 := by
          rw [hout]
          exact buildTable_rebuild data t1 ht1keys
        rw [hBT]
        have hrun2 : groupsRun (groupFilesByLanguage src) t1 = .ok t1 := by
          rw [groupsRun_ok_eq (groupFilesByLanguage src) hok t1]
          congr 1
          rw [groupsAttempts_congr (groupFilesByLanguage src) ht1keys, ht1eq]
          exact stepFold_idem _ _
        rw [hrun2]
        simp only [hte, Bool.false_eq_true, if_false]
        have hkeys1 : dictKeys t1 = dictKeys (buildTable data) :=
          dictKeys_of_keysMeta ht1keys
        have hsome : ∀ d ∈ out, (dictFind? t1 d.qualifiedName).isSome = true := by
          intro d hd
          rw [hout] at hd
          rcases List.mem_map.1 hd with ⟨d0, hd0, he⟩
          rw [← he, updRef_qualifiedName]
          rw [← mem_dictKeys_iff, hkeys1]
          exact buildTable_mem_keys data d0 hd0
        rw [assignBack_of_isSome t1 out hsome]
        have hmap : out.map (updRef t1) = out := by
          rw [hout, List.map_map]
          apply List.map_congr_left
          intro d _
          exact updRef_updRef t1 d
        rw [hmap]

/-- Witness for C3: the concrete alias-resolution run is a fixed point —
resolving again from its output returns the same output. -/
theorem resolution_idempotent_witness :
    codeBaseResolveReferences [(exAliasFile, "python")] exAliasOut =
      .ok exAliasOut :=
  resolution_idempotent [(exAliasFile, "python")] [exFoo, exBar] exAliasOut
    (by rfl)
